import Mathlib

/-!
Verification development for the yc-cofounder repository.

The repository has two Python source files:

* main_selenium.py: a profile-processing loop that extracts a profile text
  from a browser, classifies it with a language-model oracle, parses the
  semi-structured oracle response into a verdict, and appends matches to an
  append-only text log.
* format_text.py: a pure line-wrapping utility.

The embedding below models text as List Char.  Python string operations
(split, strip, startswith, regular-expression search for the three fixed
patterns used by the code) are modelled by executable Lean functions over
List Char.  Whitespace is modelled as the ASCII whitespace set used by
Python (space, tab, newline, carriage return, vertical tab, form feed);
case mapping is modelled on ASCII letters, matching the behaviour of the
code on the ASCII protocol tokens it manipulates.
-/

set_option maxRecDepth 8000

namespace YC

/-- Models the Python whitespace class (str.split, str.strip, regex \s)
restricted to ASCII. -/
def pyIsSpace (c : Char) : Bool :=
  c = ' ' || c = '\t' || c = '\n' || c = '\r' || c = '\x0b' || c = '\x0c'

/-- Case-insensitive character comparison, as used by re.IGNORECASE on the
ASCII protocol tokens.  Char.toLower lower-cases exactly ASCII letters. -/
def charCI (a b : Char) : Bool :=
  Char.toLower a = Char.toLower b

/-- Models str.startswith for character lists: the first argument is the
pattern, the second the text. -/
def leadsWith : List Char → List Char → Bool
  | [], _ => true
  | _ :: _, [] => false
  | p :: ps, c :: cs => (p = c) && leadsWith ps cs

/-- Case-insensitive prefix test (regex literal matching under
re.IGNORECASE). -/
def leadsWithCI : List Char → List Char → Bool
  | [], _ => true
  | _ :: _, [] => false
  | p :: ps, c :: cs => charCI p c && leadsWithCI ps cs

/-- Drops trailing characters satisfying p. -/
def dropTrail (p : Char → Bool) (l : List Char) : List Char :=
  (l.reverse.dropWhile p).reverse

/-- Models Python str.strip(): removes leading and trailing whitespace. -/
def pyStrip (l : List Char) : List Char :=
  dropTrail pyIsSpace (l.dropWhile pyIsSpace)

/-- Models re.search: tries the pattern matcher at every position of the
text, left to right, and returns the first success. -/
def scan {α : Type} (probe : List Char → Option α) : List Char → Option α
  | [] => none
  | c :: rest =>
    match probe (c :: rest) with
    | some v => some v
    | none => scan probe rest

/-- Models matching the regex tail of NAME, after the label, without
re.DOTALL: backslash-s star (greedy) followed by the group dot-plus, where
dot does not match a newline.  Returns the captured group.
If at least one character follows the maximal whitespace run, the capture
runs from there to the next newline; otherwise the regex engine backtracks
inside the whitespace run and the capture is the last non-newline
whitespace character, if any. -/
def matchRestLine (cs : List Char) : Option (List Char) :=
  let r := cs.dropWhile pyIsSpace
  if r ≠ [] then some (r.takeWhile (fun c => c ≠ '\n'))
  else
    match (cs.takeWhile pyIsSpace).reverse.dropWhile (fun c => c = '\n') with
    | [] => none
    | c :: _ => some [c]

/-- Models matching the regex tail of SUMMARY, after the label, with
re.DOTALL: backslash-s star (greedy) followed by the group dot-plus where
dot also matches newlines, so the capture greedily extends to the end of
the text.  If only whitespace follows, backtracking captures the final
character. -/
def matchRestAll (cs : List Char) : Option (List Char) :=
  let r := cs.dropWhile pyIsSpace
  if r ≠ [] then some r
  else
    match cs.reverse with
    | [] => none
    | c :: _ => some [c]

def labelNAME : List Char := "NAME:".toList
def labelEXPERIENCE : List Char := "EXPERIENCE:".toList
def labelSUMMARY : List Char := "SUMMARY:".toList
def tokenYES : List Char := "YES".toList
def tokenNO : List Char := "NO".toList

/-- Models trying the pattern NAME with backslash-s star and a dot-plus
group at one position (case-sensitive, no DOTALL). -/
def probeNAME (cs : List Char) : Option (List Char) :=
  if leadsWith labelNAME cs then matchRestLine (cs.drop 5) else none

/-- Models trying the pattern EXPERIENCE with backslash-s star and the
group YES-or-NO at one position, under re.IGNORECASE (which makes the
label and the value case-insensitive).  Returns some true when the YES
alternative matched, some false for NO.  Greedy whitespace skipping never
needs backtracking here because YES and NO contain no whitespace. -/
def probeEXPERIENCE (cs : List Char) : Option Bool :=
  if leadsWithCI labelEXPERIENCE cs then
    let r := (cs.drop 11).dropWhile pyIsSpace
    if leadsWithCI tokenYES r then some true
    else if leadsWithCI tokenNO r then some false
    else none
  else none

/-- Models trying the pattern SUMMARY with backslash-s star and a DOTALL
dot-plus group at one position (case-sensitive). -/
def probeSUMMARY (cs : List Char) : Option (List Char) :=
  if leadsWith labelSUMMARY cs then matchRestAll (cs.drop 8) else none

def defaultName : List Char := "Unknown".toList
def defaultSummary : List Char := "No summary available".toList

/-- The structured verdict produced by the parser: the tuple
(has_experience, person_name, analysis_summary) returned by
analyze_text_for_interests. -/
structure Verdict where
  has_experience : Bool
  person_name : List Char
  summary : List Char
deriving DecidableEq, Repr

/-- Models the response-parsing part of analyze_text_for_interests in
main_selenium.py, applied to the raw oracle response text.  The prompt
construction and the oracle round trip are external collaborators; the
function models the three re.search calls and the default fallbacks.
The Python value of has_experience is the boolean of the match object
being present with the captured alternative YES upper-cased equal to YES;
a missing match yields a falsy value, modelled as false. -/
def analyze_text_for_interests (analysis : List Char) : Verdict :=
  let name_match := scan probeNAME analysis
  let experience_match := scan probeEXPERIENCE analysis
  let summary_match := scan probeSUMMARY analysis
  { has_experience :=
      match experience_match with
      | some b => b
      | none => false
    person_name :=
      match name_match with
      | some g => pyStrip g
      | none => defaultName
    summary :=
      match summary_match with
      | some g => pyStrip g
      | none => defaultSummary }

/-! ## Candidate log writer (save_candidate_to_file) -/

/-- The 60-character separator line used by the record format. -/
def sepLine : List Char := List.replicate 60 '='

def tagDate : List Char := "Date: ".toList
def tagName : List Char := "Name: ".toList
def tagURL : List Char := "URL: ".toList
def tagReason : List Char := "Reason: ".toList
def countedTag : List Char := "Name:".toList

/-- The entry string built by save_candidate_to_file: the Python
triple-quoted f-string opens with a newline, then the separator line, the
Date, Name, URL and Reason lines, the separator line, and a final blank
line.  The timestamp is produced by datetime.now().strftime and passed
here as a parameter because it is an external input. -/
def entryFor (timestamp person_name url summary : List Char) : List Char :=
  '\n' :: (sepLine ++ '\n' :: (tagDate ++ timestamp ++ '\n' ::
    (tagName ++ person_name ++ '\n' :: (tagURL ++ url ++ '\n' ::
      (tagReason ++ summary ++ '\n' :: (sepLine ++ '\n' :: '\n' :: []))))))

/-- Models splitting a text into lines at newline characters, the line
decomposition underlying f.readlines() and str.split on a newline. -/
def splitLines : List Char → List (List Char)
  | [] => [[]]
  | c :: rest =>
    if c = '\n' then [] :: splitLines rest
    else
      match splitLines rest with
      | [] => [[c]]
      | l :: ls => (c :: l) :: ls

/-- The count reported by save_candidate_to_file after a write: the number
of lines of the file that start with the Name tag.  readlines keeps the
newline terminators, which does not affect startswith, and the final
segment after the last newline is empty for files written by this code and
never starts with the tag, so counting over splitLines is equivalent. -/
def candidate_count (file : List Char) : Nat :=
  ((splitLines file).filter (fun line => leadsWith countedTag line)).length

/-- Models save_candidate_to_file: appends the formatted entry to the file
and re-reads the file to report the cumulative count of Name lines.
Returns the new file contents and the reported count. -/
def save_candidate_to_file (person_name url summary timestamp file : List Char) :
    List Char × Nat :=
  let f2 := file ++ entryFor timestamp person_name url summary
  (f2, candidate_count f2)

/-! ## Session loop (main) -/

/-- The only Selenium failure relevant to the extraction step: the bounded
wait elapses without the fixed XPath element appearing and wait.until
raises TimeoutException. -/
inductive SeleniumError where
  | timeoutException : SeleniumError
deriving DecidableEq, Repr

/-- Models get_page_text: WebDriverWait(driver, 10).until either produces
the element, whose displayed text is returned, or raises TimeoutException
when the element does not appear within the bounded wait.  The function
body contains no exception handler. -/
def get_page_text (elementText : Option (List Char)) :
    Except SeleniumError (List Char) :=
  match elementText with
  | some t => Except.ok t
  | none => Except.error SeleniumError.timeoutException

/-- Outcome of the extraction phase of one loop iteration of main. -/
inductive ExtractOutcome where
  | analyze (t : List Char)
  | skipProfile
  | uncaughtException (e : SeleniumError)
deriving DecidableEq, Repr

/-- Models the extraction phase of the loop body of main: the call
page_text = get_page_text(driver, debug) has no surrounding try block, so
an exception raised by the bounded wait propagates out of the loop (only
the finally clause that quits the browser runs, and the run terminates).
Only a successfully returned empty text reaches the skip branch guarded by
if not page_text. -/
def main_extract_step (elementText : Option (List Char)) : ExtractOutcome :=
  match get_page_text elementText with
  | Except.error e => ExtractOutcome.uncaughtException e
  | Except.ok t =>
    if t = [] then ExtractOutcome.skipProfile else ExtractOutcome.analyze t

/-- One iteration input of the decision part of the session loop: the raw
oracle response for the displayed profile, the current profile URL, and
the timestamp the writer would use. -/
structure IterationInput where
  response : List Char
  url : List Char
  timestamp : List Char

/-- Models the decision branch of the loop body of main: the verdict is
parsed from the oracle response; when has_experience holds, the profile
URL is fetched and save_candidate_to_file appends a record; otherwise the
iteration advances without touching the file. -/
def main_decide_step (it : IterationInput) (file : List Char) : List Char :=
  let v := analyze_text_for_interests it.response
  if v.has_experience then
    (save_candidate_to_file v.person_name it.url v.summary it.timestamp file).1
  else file

/-- Models a session: the loop body runs once per iteration input,
threading the log file through. -/
def main_session_run : List IterationInput → List Char → List Char
  | [], file => file
  | it :: rest, file => main_session_run rest (main_decide_step it file)

/-! ## Text formatter (format_text.py) -/

/-- Models str.split() with no arguments: maximal runs of non-whitespace
characters, with all whitespace discarded. -/
def pyWords : List Char → List (List Char)
  | [] => []
  | c :: cs =>
    if pyIsSpace c then pyWords cs
    else
      match cs with
      | [] => [[c]]
      | d :: _ =>
        if pyIsSpace d then [c] :: pyWords cs
        else
          match pyWords cs with
          | w :: ws => (c :: w) :: ws
          | [] => [[c]]

/-- Models the space-join of a list of words, as in the join with a single
space used when flushing current_line. -/
def joinSpace : List (List Char) → List Char
  | [] => []
  | [w] => w
  | w :: ws => w ++ ' ' :: joinSpace ws

/-- Models the word-grouping loop of format_text_with_line_breaks: words
are appended to current_line, which is flushed as soon as it reaches
words_per_line words; a nonempty remainder is flushed at the end. -/
def chunkLoop (wpl : Nat) : List (List Char) → List (List Char) →
    List (List (List Char))
  | cur, [] => if cur = [] then [] else [cur]
  | cur, w :: ws =>
    if wpl ≤ (cur ++ [w]).length then (cur ++ [w]) :: chunkLoop wpl [] ws
    else chunkLoop wpl (cur ++ [w]) ws

def sepMark : List Char := "====".toList
def hdrDate : List Char := "Date:".toList
def hdrName : List Char := "Name:".toList
def hdrURL : List Char := "URL:".toList
def hdrReason : List Char := "Reason:".toList

/-- The header labels tested by the formatter. -/
def headerLabels : List (List Char) := [hdrDate, hdrName, hdrURL, hdrReason]

/-- Whether the formatter classifies a line as a header line. -/
def isHeaderLine (line : List Char) : Bool :=
  headerLabels.any (fun h => leadsWith h line)

/-- Models the join with a newline separator. -/
def joinNL : List (List Char) → List Char
  | [] => []
  | [l] => l
  | l :: ls => l ++ '\n' :: joinNL ls

/-- Models the processing of one line by format_text_with_line_breaks:
empty and separator lines are kept; header lines are split at the first
colon, their content re-wrapped in words_per_line groups with the label
re-attached to the first group; other lines are re-wrapped only when they
exceed words_per_line words. -/
def format_line (wpl : Nat) (line : List Char) : List (List Char) :=
  if pyStrip line = [] ∨ leadsWith sepMark (pyStrip line) then [line]
  else if isHeaderLine line then
    if ':' ∈ line then
      if pyStrip ((line.dropWhile (fun c => c ≠ ':')).tail) ≠ [] then
        match (chunkLoop wpl []
            (pyWords (pyStrip ((line.dropWhile (fun c => c ≠ ':')).tail)))).map
            joinSpace with
        | firstContent :: restContent =>
          (line.takeWhile (fun c => c ≠ ':') ++ ':' :: ' ' :: firstContent)
            :: restContent
        | [] => [line]
      else [line]
    else [line]
  else
    if wpl < (pyWords line).length then
      (chunkLoop wpl [] (pyWords line)).map joinSpace
    else [line]

/-- Models format_text_with_line_breaks: split into lines, process each
line, and join the collected lines with newlines. -/
def format_text_with_line_breaks (text : List Char) (wpl : Nat) : List Char :=
  joinNL (((splitLines text).map (format_line wpl)).flatten)

/-! ## Concrete inputs used by the claim theorems -/

def tsX : List Char := "2025-01-01 00:00:00".toList
def nmX : List Char := "Jane".toList
def urX : List Char := "u1".toList
def suX : List Char := "built a robot".toList
def textC2 : List Char := "EXPERIENCE: NO\nEXPERIENCE: YES".toList
def textC3 : List Char := "experience: yes".toList
def fwdC4 : List Char := "NAME: Jane\nEXPERIENCE: YES\nSUMMARY: built robots".toList
def revC4 : List Char := "SUMMARY: built robots\nEXPERIENCE: YES\nNAME: Jane".toList
def summaryC10 : List Char := "ex\nName: extra".toList
def sepLongLine : List Char := "==== a a a a a a a a a a a a a a a".toList
def tokenYesLower : List Char := "yes".toList

/-- The predicate asserted by claim C2: the text contains the EXPERIENCE
label (written as in the protocol) followed, after optional whitespace, by
a value token equal to YES case-insensitively. -/
def containsLabelYES (t : List Char) : Prop :=
  ∃ i, leadsWith labelEXPERIENCE (t.drop i) = true ∧
    (((t.drop (i + 11)).dropWhile pyIsSpace).takeWhile
      (fun c => pyIsSpace c = false)).map Char.toLower = tokenYesLower

/-- Modelled from the spec (section 6): the record format the spec claims
the writer appends, with no additional leading or trailing lines around
the record. -/
def specRecordFormat (timestamp person_name url summary : List Char) : List Char :=
  sepLine ++ '\n' :: (tagDate ++ timestamp ++ '\n' ::
    (tagName ++ person_name ++ '\n' :: (tagURL ++ url ++ '\n' ::
      (tagReason ++ summary ++ '\n' :: (sepLine ++ '\n' :: '\n' :: [])))))

/-! ## Claim theorems: the directly decidable ones -/

/-- C1: the claim says an extraction timeout is handled locally by the
loop iteration and never crashes the session.  In the code the bounded
wait raises TimeoutException, get_page_text has no handler, and the call
site in main has no try block, so the exception propagates and ends the
run; the skip branch is reached only when the wait succeeds and returns
empty text.  This theorem evaluates the loop body at the failing input
(the fixed XPath element never appears): the outcome is an uncaught
exception, not the local skip the claim describes. -/
theorem C1_extraction_timeout_crashes :
    main_extract_step none =
      ExtractOutcome.uncaughtException SeleniumError.timeoutException ∧
    main_extract_step none ≠ ExtractOutcome.skipProfile ∧
    main_extract_step (some []) = ExtractOutcome.skipProfile := by
  decide

/-- C2 counterexample: this text contains the EXPERIENCE label followed by
the token YES, so the claim requires the flag to be true; but re.search
takes the leftmost match, which here captures NO, and the parser returns
false. -/
theorem C2_counterexample :
    containsLabelYES textC2 ∧
    (analyze_text_for_interests textC2).has_experience = false :=
  ⟨⟨15, by decide, by decide⟩, by decide⟩

/-- C3 counterexample: the claim says a lower-case label such as
experience: does not bind the field.  This text contains no case-sensitive
occurrence of the EXPERIENCE label, yet the parser flag is true, because
re.IGNORECASE applies to the whole pattern, label included. -/
theorem C3_counterexample :
    (List.range textC3.length).all
      (fun i => !leadsWith labelEXPERIENCE (textC3.drop i)) = true ∧
    (analyze_text_for_interests textC3).has_experience = true := by
  decide

/-- C4 counterexample: a synthetic oracle response with the three fields
in reverse order yields the same name and the same flag as the forward
order, but not the same verdict: the SUMMARY capture is greedy under
re.DOTALL, so in reverse order the summary swallows the following
EXPERIENCE and NAME lines. -/
theorem C4_counterexample :
    (analyze_text_for_interests fwdC4).person_name =
      (analyze_text_for_interests revC4).person_name ∧
    (analyze_text_for_interests fwdC4).has_experience =
      (analyze_text_for_interests revC4).has_experience ∧
    analyze_text_for_interests fwdC4 ≠ analyze_text_for_interests revC4 := by
  decide

/-- C5: parsing is total (the parser is a function and raises nothing),
and the empty input yields exactly the default verdict: name Unknown,
flag false, summary No summary available. -/
theorem C5_empty_input_defaults :
    (∀ t : List Char, ∃ v : Verdict, analyze_text_for_interests t = v) ∧
    analyze_text_for_interests [] =
      { has_experience := false, person_name := defaultName,
        summary := defaultSummary } :=
  ⟨fun t => ⟨analyze_text_for_interests t, rfl⟩, by decide⟩

/-- C8 counterexample: the entry the writer appends is not the record
format claimed by the spec, because the Python triple-quoted string opens
with a newline, adding a blank line before the first separator. -/
theorem C8_counterexample :
    entryFor tsX nmX urX suX ≠ specRecordFormat tsX nmX urX suX := by
  decide

/-- C8 amended: every appended record is exactly the claimed format
preceded by one additional blank line. -/
theorem C8_amended (timestamp person_name url summary : List Char) :
    entryFor timestamp person_name url summary =
      '\n' :: specRecordFormat timestamp person_name url summary :=
  rfl

/-- C9 counterexample: a non-header line whose stripped form starts with
the separator marker is preserved unchanged by the formatter no matter how
many words it has; after two applications this 16-word non-header line
still exceeds the 15-word threshold, contradicting the claim. -/
theorem C9_counterexample :
    splitLines (format_text_with_line_breaks
      (format_text_with_line_breaks sepLongLine 15) 15) = [sepLongLine] ∧
    isHeaderLine sepLongLine = false ∧
    15 < (pyWords sepLongLine).length := by
  decide

/-- C10: the reported count counts every line beginning with the Name tag,
including lines inside a multi-line Reason text: after appending exactly
one record whose summary contains an embedded line starting with the Name
tag, the writer reports 2, which exceeds the one record ever appended. -/
theorem C10_count_exceeds_records :
    (save_candidate_to_file nmX urX summaryC10 tsX []).1 =
      entryFor tsX nmX urX summaryC10 ∧
    (save_candidate_to_file nmX urX summaryC10 tsX []).2 = 2 ∧
    1 < (save_candidate_to_file nmX urX summaryC10 tsX []).2 := by
  decide

/-! ## C6: records are appended exactly for flagged verdicts -/

/-- The record the loop would append for one iteration input. -/
def recordOf (it : IterationInput) : List Char :=
  entryFor it.timestamp (analyze_text_for_interests it.response).person_name
    it.url (analyze_text_for_interests it.response).summary

/-- C6: over any session, the final log equals the initial log followed by
exactly the records of the iterations whose parsed verdict has
has_experience true, in order; an iteration with a false flag contributes
nothing to the log.  In particular a record is appended in an iteration if
and only if that iteration has a flagged verdict. -/
theorem C6_log_iff_flag (items : List IterationInput) (file : List Char) :
    main_session_run items file =
      file ++ ((items.filter
        (fun it => (analyze_text_for_interests it.response).has_experience)).map
          recordOf).flatten := by
  induction items generalizing file with
  | nil => simp [main_session_run]
  | cons it rest ih =>
    simp only [main_session_run, main_decide_step, List.filter_cons]
    by_cases h : (analyze_text_for_interests it.response).has_experience = true
    · simp only [h, if_true, save_candidate_to_file, ih, recordOf,
        List.map_cons, List.flatten_cons, List.append_assoc]
    · simp only [Bool.not_eq_true] at h
      simp only [h, if_false, Bool.false_eq_true, ih]

/-! ## C7: line lemmas for the append-only log -/

theorem splitLines_ne_nil (l : List Char) : splitLines l ≠ [] := by
  cases l with
  | nil => simp [splitLines]
  | cons c rest =>
    simp only [splitLines]
    by_cases h : c = '\n'
    · simp [h]
    · simp only [h, if_false]
      cases splitLines rest <;> simp

theorem splitLines_newline_cons (t : List Char) :
    splitLines ('\n' :: t) = [] :: splitLines t := rfl

theorem splitLines_cons_of_ne {c : Char} (h : c ≠ '\n') (t : List Char) :
    splitLines (c :: t) =
      match splitLines t with
      | [] => [[c]]
      | l :: ls => (c :: l) :: ls := by
  simp [splitLines, h]

theorem splitLines_append_newline (a b : List Char) :
    splitLines (a ++ '\n' :: b) = splitLines a ++ splitLines b := by
  induction a with
  | nil => simp [splitLines]
  | cons c a ih =>
    by_cases h : c = '\n'
    · subst h
      show splitLines ('\n' :: (a ++ '\n' :: b)) = _
      rw [splitLines_newline_cons, splitLines_newline_cons, ih]
      rfl
    · show splitLines (c :: (a ++ '\n' :: b)) = _
      rw [splitLines_cons_of_ne h, splitLines_cons_of_ne h, ih]
      rcases hl : splitLines a with _ | ⟨l, ls⟩
      · exact absurd hl (splitLines_ne_nil a)
      · simp [hl]

theorem splitLines_no_newline (x : List Char) (h : '\n' ∉ x) :
    splitLines x = [x] := by
  induction x with
  | nil => rfl
  | cons c rest ih =>
    simp only [List.mem_cons, not_or] at h
    simp only [splitLines, Ne.symm h.1, if_false, ih h.2]

/-- One iteration argument tuple of the log writer. -/
structure WriteArgs where
  person_name : List Char
  url : List Char
  summary : List Char
  timestamp : List Char

/-- The entry appended for one writer call. -/
def entryOf (a : WriteArgs) : List Char :=
  entryFor a.timestamp a.person_name a.url a.summary

/-- A sequence of log-writer calls threading the file through, as the
session does. -/
def runWrites : List WriteArgs → List Char → List Char
  | [], file => file
  | a :: rest, file =>
    runWrites rest
      (save_candidate_to_file a.person_name a.url a.summary a.timestamp file).1

/-- No field of the record contains a newline. -/
def newlineFree (a : WriteArgs) : Bool :=
  a.person_name.all (fun c => c != '\n') && a.url.all (fun c => c != '\n') &&
    a.summary.all (fun c => c != '\n') && a.timestamp.all (fun c => c != '\n')

theorem not_newline_mem_of_all {l : List Char}
    (h : l.all (fun c => c != '\n') = true) : '\n' ∉ l := by
  intro hm
  have := List.all_eq_true.1 h _ hm
  simp at this

theorem runWrites_eq (l : List WriteArgs) (file : List Char) :
    runWrites l file = file ++ (l.map entryOf).flatten := by
  induction l generalizing file with
  | nil => simp [runWrites]
  | cons a rest ih =>
    simp only [runWrites, save_candidate_to_file, ih, entryOf, List.map_cons,
      List.flatten_cons, List.append_assoc]

theorem splitLines_entry (a : WriteArgs) (h : newlineFree a = true) :
    splitLines (entryOf a) =
      [[], sepLine, tagDate ++ a.timestamp, tagName ++ a.person_name,
        tagURL ++ a.url, tagReason ++ a.summary, sepLine, [], []] := by
  simp only [newlineFree, Bool.and_eq_true] at h
  have hts := not_newline_mem_of_all h.2
  have hn := not_newline_mem_of_all h.1.1.1
  have hu := not_newline_mem_of_all h.1.1.2
  have hs := not_newline_mem_of_all h.1.2
  have sep : '\n' ∉ sepLine := by decide
  have l1 : '\n' ∉ tagDate ++ a.timestamp := by
    simp only [List.mem_append, not_or]
    exact ⟨by decide, hts⟩
  have l2 : '\n' ∉ tagName ++ a.person_name := by
    simp only [List.mem_append, not_or]
    exact ⟨by decide, hn⟩
  have l3 : '\n' ∉ tagURL ++ a.url := by
    simp only [List.mem_append, not_or]
    exact ⟨by decide, hu⟩
  have l4 : '\n' ∉ tagReason ++ a.summary := by
    simp only [List.mem_append, not_or]
    exact ⟨by decide, hs⟩
  show splitLines ('\n' :: (sepLine ++ '\n' :: (tagDate ++ a.timestamp ++ '\n' ::
    (tagName ++ a.person_name ++ '\n' :: (tagURL ++ a.url ++ '\n' ::
      (tagReason ++ a.summary ++ '\n' :: (sepLine ++ '\n' :: '\n' :: []))))))) = _
  rw [show ∀ t : List Char, splitLines ('\n' :: t) = [] :: splitLines t from
    fun t => rfl]
  rw [splitLines_append_newline, splitLines_append_newline,
    splitLines_append_newline, splitLines_append_newline,
    splitLines_append_newline, splitLines_append_newline,
    splitLines_no_newline _ sep, splitLines_no_newline _ l1,
    splitLines_no_newline _ l2, splitLines_no_newline _ l3,
    splitLines_no_newline _ l4]
  rfl

theorem count_append_entry (file : List Char) (a : WriteArgs)
    (h : newlineFree a = true) :
    candidate_count (file ++ entryOf a) = candidate_count file + 1 := by
  have hsplit : splitLines (file ++ entryOf a) =
      splitLines file ++ (splitLines (entryOf a)).tail := by
    have he : entryOf a = '\n' :: (sepLine ++ '\n' ::
        (tagDate ++ a.timestamp ++ '\n' :: (tagName ++ a.person_name ++ '\n' ::
          (tagURL ++ a.url ++ '\n' :: (tagReason ++ a.summary ++ '\n' ::
            (sepLine ++ '\n' :: '\n' :: [])))))) := rfl
    conv_lhs => rw [he]
    conv_rhs => rw [he]
    rw [show ∀ t : List Char, splitLines ('\n' :: t) = [] :: splitLines t from
      fun t => rfl]
    rw [List.tail_cons]
    exact splitLines_append_newline file _
  have e1 : leadsWith countedTag (tagDate ++ a.timestamp) = false := rfl
  have e2 : leadsWith countedTag (tagName ++ a.person_name) = true := rfl
  have e3 : leadsWith countedTag (tagURL ++ a.url) = false := rfl
  have e4 : leadsWith countedTag (tagReason ++ a.summary) = false := rfl
  have e5 : leadsWith countedTag sepLine = false := by decide
  have e6 : leadsWith countedTag ([] : List Char) = false := rfl
  simp only [candidate_count, hsplit, splitLines_entry a h, List.tail_cons,
    List.filter_append, List.length_append, List.filter_cons, e1, e2, e3, e4,
    e5, e6, List.filter_nil]
  simp

theorem count_runWrites (l : List WriteArgs) (file : List Char)
    (h : ∀ a ∈ l, newlineFree a = true) :
    candidate_count (runWrites l file) = candidate_count file + l.length := by
  induction l generalizing file with
  | nil => simp [runWrites]
  | cons a rest ih =>
    have step : runWrites (a :: rest) file = runWrites rest (file ++ entryOf a) :=
      rfl
    rw [step, ih _ (fun x hx => h x (List.mem_cons_of_mem _ hx)),
      count_append_entry file a (h a (List.mem_cons_self _ _))]
    simp only [List.length_cons]
    omega

def summaryC7 : List Char := "worked\nName: embedded".toList

def argsC7 : WriteArgs :=
  { person_name := nmX, url := urX, summary := summaryC7, timestamp := tsX }

/-- C7 counterexample: a single writer call (names trivially distinct)
whose summary contains an embedded line beginning with the Name tag makes
the first call report a count of 2, not 1; the claim as stated, which
constrains only the names, is false. -/
theorem C7_counterexample :
    [argsC7].length = 1 ∧ candidate_count (runWrites [argsC7] []) = 2 := by
  decide

/-- C7 amended: for every sequence of writer calls with distinct names in
which no written field contains a newline (in particular no summary spans
several lines), the file after the first k calls contains exactly k lines
beginning with the Name tag, which is what the k-th call reports; and the
file after k calls is a byte prefix of the file after all calls, so
earlier records are never rewritten. -/
theorem C7_amended (l : List WriteArgs)
    (hnl : ∀ a ∈ l, newlineFree a = true)
    (_hdistinct : (l.map WriteArgs.person_name).Nodup) :
    (∀ k, candidate_count (runWrites (l.take k) []) = (l.take k).length) ∧
    (∀ k, ∃ t, runWrites (l.take k) [] ++ t = runWrites l []) := by
  constructor
  · intro k
    have hk : ∀ a ∈ l.take k, newlineFree a = true := fun a ha =>
      hnl a (List.mem_of_mem_take ha)
    rw [count_runWrites _ _ hk]
    have : candidate_count [] = 0 := by decide
    omega
  · intro k
    rw [runWrites_eq, runWrites_eq]
    refine ⟨((l.drop k).map entryOf).flatten, ?_⟩
    rw [List.nil_append, List.nil_append, ← List.flatten_append,
      ← List.map_append, List.take_append_drop]

def argsW1 : WriteArgs :=
  { person_name := "Alice".toList, url := "u1".toList,
    summary := "built surgical robots".toList, timestamp := tsX }

def argsW2 : WriteArgs :=
  { person_name := "Bob".toList, url := "u2".toList,
    summary := "clinical trials work".toList, timestamp := tsX }

/-- Witness for C7 amended at a concrete two-call sequence. -/
theorem C7_witness :
    ((∀ a ∈ [argsW1, argsW2], newlineFree a = true) ∧
      ([argsW1, argsW2].map WriteArgs.person_name).Nodup) ∧
    ((∀ k, candidate_count (runWrites ([argsW1, argsW2].take k) []) =
        ([argsW1, argsW2].take k).length) ∧
      (∀ k, ∃ t, runWrites ([argsW1, argsW2].take k) [] ++ t =
        runWrites [argsW1, argsW2] [])) :=
  ⟨⟨by decide, by decide⟩, C7_amended [argsW1, argsW2] (by decide) (by decide)⟩

/-! ## C2: the flag is decided by the leftmost label-and-value match -/

theorem scan_eq_some_iff {α : Type} (probe : List Char → Option α)
    (h0 : probe [] = none) :
    ∀ (t : List Char) (v : α),
      scan probe t = some v ↔
        ∃ i, probe (t.drop i) = some v ∧
          ∀ j, j < i → probe (t.drop j) = none := by
  intro t
  induction t with
  | nil =>
    intro v
    simp [scan, h0]
  | cons c rest ih =>
    intro v
    have hscan : scan probe (c :: rest) =
        match probe (c :: rest) with
        | some w => some w
        | none => scan probe rest := rfl
    cases hp : probe (c :: rest) with
    | some w =>
      rw [hscan, hp]
      show some w = some v ↔ _
      constructor
      · intro h
        refine ⟨0, ?_, fun j hj => absurd hj (Nat.not_lt_zero j)⟩
        rw [List.drop_zero, hp, h]
      · rintro ⟨i, hi, hj⟩
        cases i with
        | zero =>
          rw [List.drop_zero, hp] at hi
          exact hi
        | succ i =>
          have := hj 0 (Nat.succ_pos i)
          rw [List.drop_zero, hp] at this
          exact absurd this (by simp)
    | none =>
      rw [hscan, hp]
      show scan probe rest = some v ↔ _
      rw [ih v]
      constructor
      · rintro ⟨i, hi, hj⟩
        refine ⟨i + 1, ?_, ?_⟩
        · rw [List.drop_succ_cons]
          exact hi
        · intro j hjlt
          cases j with
          | zero =>
            rw [List.drop_zero]
            exact hp
          | succ j =>
            rw [List.drop_succ_cons]
            exact hj j (Nat.lt_of_succ_lt_succ hjlt)
      · rintro ⟨i, hi, hj⟩
        cases i with
        | zero =>
          rw [List.drop_zero, hp] at hi
          exact absurd hi (by simp)
        | succ i =>
          rw [List.drop_succ_cons] at hi
          refine ⟨i, hi, fun j hjlt => ?_⟩
          have := hj (j + 1) (Nat.succ_lt_succ hjlt)
          rw [List.drop_succ_cons] at this
          exact this

theorem flag_eq_scan (t : List Char) :
    (analyze_text_for_interests t).has_experience = true ↔
      scan probeEXPERIENCE t = some true := by
  simp only [analyze_text_for_interests]
  cases h : scan probeEXPERIENCE t with
  | none => simp [h]
  | some b => cases b <;> simp [h]

/-- C2 amended: the flag is true exactly when the leftmost position at
which the EXPERIENCE label (matched case-insensitively, as is the value,
since re.IGNORECASE covers the whole pattern) is followed, after optional
whitespace, by a value beginning with YES or NO, has a value beginning
with YES; when no position matches at all the flag is false (the leftmost
characterization makes that case the empty existential). -/
theorem C2_amended (t : List Char) :
    (analyze_text_for_interests t).has_experience = true ↔
      ∃ i, probeEXPERIENCE (t.drop i) = some true ∧
        ∀ j, j < i → probeEXPERIENCE (t.drop j) = none := by
  rw [flag_eq_scan]
  exact scan_eq_some_iff probeEXPERIENCE rfl t true

/-! ## C3: case sensitivity of the three labels -/

theorem toNat_ofNat_lt {n : Nat} (h : n < 55296) : (Char.ofNat n).toNat = n := by
  rw [Char.ofNat, dif_pos (Or.inl h)]
  rfl

theorem toLower_toUpper (c : Char) :
    Char.toLower (Char.toUpper c) = Char.toLower c := by
  simp only [Char.toUpper, Char.toLower]
  by_cases h : c.toNat ≥ 97 ∧ c.toNat ≤ 122
  · rw [if_pos h]
    have h1 : (Char.ofNat (c.toNat - 32)).toNat = c.toNat - 32 :=
      toNat_ofNat_lt (by omega)
    rw [h1, if_pos (by omega), if_neg (by omega)]
    have h2 : c.toNat - 32 + 32 = c.toNat := by omega
    rw [h2, Char.ofNat_toNat]
  · rw [if_neg h]

theorem char_eq_iff_toNat {c d : Char} : c = d ↔ c.toNat = d.toNat := by
  constructor
  · intro h
    rw [h]
  · intro h
    have h2 := congrArg Char.ofNat h
    rwa [Char.ofNat_toNat, Char.ofNat_toNat] at h2

theorem pyIsSpace_iff (c : Char) :
    pyIsSpace c = true ↔
      (c.toNat = 32 ∨ c.toNat = 9 ∨ c.toNat = 10 ∨ c.toNat = 13 ∨
        c.toNat = 11 ∨ c.toNat = 12) := by
  simp only [pyIsSpace, Bool.or_eq_true, decide_eq_true_eq]
  rw [char_eq_iff_toNat, char_eq_iff_toNat, char_eq_iff_toNat,
    char_eq_iff_toNat, char_eq_iff_toNat, char_eq_iff_toNat]
  have e1 : Char.toNat ' ' = 32 := rfl
  have e2 : Char.toNat '\t' = 9 := rfl
  have e3 : Char.toNat '\n' = 10 := rfl
  have e4 : Char.toNat '\r' = 13 := rfl
  have e5 : Char.toNat '\x0b' = 11 := rfl
  have e6 : Char.toNat '\x0c' = 12 := rfl
  rw [e1, e2, e3, e4, e5, e6]
  tauto

theorem pyIsSpace_toUpper (c : Char) :
    pyIsSpace (Char.toUpper c) = pyIsSpace c := by
  simp only [Char.toUpper]
  by_cases h : c.toNat ≥ 97 ∧ c.toNat ≤ 122
  · rw [if_pos h]
    have h1 : (Char.ofNat (c.toNat - 32)).toNat = c.toNat - 32 :=
      toNat_ofNat_lt (by omega)
    have lhs : pyIsSpace (Char.ofNat (c.toNat - 32)) = false := by
      rw [← Bool.not_eq_true, pyIsSpace_iff, h1]
      omega
    have rhs : pyIsSpace c = false := by
      rw [← Bool.not_eq_true, pyIsSpace_iff]
      omega
    rw [lhs, rhs]
  · rw [if_neg h]

theorem charCI_toUpper (p c : Char) :
    charCI p (Char.toUpper c) = charCI p c := by
  simp [charCI, toLower_toUpper]

theorem leadsWithCI_map_toUpper (p : List Char) :
    ∀ l : List Char, leadsWithCI p (l.map Char.toUpper) = leadsWithCI p l := by
  induction p with
  | nil => intro l; rfl
  | cons x ps ih =>
    intro l
    cases l with
    | nil => rfl
    | cons c cs => simp [leadsWithCI, charCI_toUpper, ih]

theorem dropWhile_pyIsSpace_map (l : List Char) :
    (l.map Char.toUpper).dropWhile pyIsSpace =
      (l.dropWhile pyIsSpace).map Char.toUpper := by
  induction l with
  | nil => rfl
  | cons c cs ih =>
    simp only [List.map_cons, List.dropWhile_cons, pyIsSpace_toUpper]
    by_cases h : pyIsSpace c = true
    · simp [h, ih]
    · simp [h]

theorem probeEXPERIENCE_map_toUpper (l : List Char) :
    probeEXPERIENCE (l.map Char.toUpper) = probeEXPERIENCE l := by
  simp only [probeEXPERIENCE, leadsWithCI_map_toUpper, ← List.map_drop,
    dropWhile_pyIsSpace_map]

theorem scan_map_toUpper {α : Type} (probe : List Char → Option α)
    (hp : ∀ l, probe (l.map Char.toUpper) = probe l) :
    ∀ t, scan probe (t.map Char.toUpper) = scan probe t := by
  intro t
  induction t with
  | nil => rfl
  | cons c cs ih =>
    have h1 : scan probe (List.map Char.toUpper (c :: cs)) =
        match probe (List.map Char.toUpper (c :: cs)) with
        | some v => some v
        | none => scan probe (List.map Char.toUpper cs) := rfl
    have h2 : scan probe (c :: cs) =
        match probe (c :: cs) with
        | some v => some v
        | none => scan probe cs := rfl
    rw [h1, h2, hp, ih]

def textNameLower : List Char := "name: Jane".toList
def textNameUpper : List Char := "NAME: Jane".toList
def textSumLower : List Char := "summary: found robotics work".toList
def textSumUpper : List Char := "SUMMARY: found robotics work".toList
def capturedName : List Char := "Jane".toList
def capturedSum : List Char := "found robotics work".toList

/-- C3 amended: the NAME and SUMMARY labels are matched case-sensitively
(the lower-case variants do not bind and the defaults are returned), but
the EXPERIENCE field is matched wholly case-insensitively, label included,
because re.IGNORECASE applies to the entire pattern: the flag is invariant
under upper-casing the whole text, and a fully lower-case experience line
binds the field. -/
theorem C3_amended :
    (∀ t : List Char,
      (analyze_text_for_interests (t.map Char.toUpper)).has_experience =
        (analyze_text_for_interests t).has_experience) ∧
    (analyze_text_for_interests textNameLower).person_name = defaultName ∧
    (analyze_text_for_interests textNameUpper).person_name = capturedName ∧
    (analyze_text_for_interests textSumLower).summary = defaultSummary ∧
    (analyze_text_for_interests textSumUpper).summary = capturedSum ∧
    (analyze_text_for_interests textC3).has_experience = true := by
  refine ⟨fun t => ?_, by decide, by decide, by decide, by decide, by decide⟩
  simp only [analyze_text_for_interests,
    scan_map_toUpper probeEXPERIENCE probeEXPERIENCE_map_toUpper t]

/-! ## C4: generic lemmas about re.search over concatenated texts -/

theorem scan_cons_of_none {α : Type} (probe : List Char → Option α)
    {c : Char} {l : List Char} (h : probe (c :: l) = none) :
    scan probe (c :: l) = scan probe l := by
  show (match probe (c :: l) with
    | some v => some v
    | none => scan probe l) = scan probe l
  rw [h]

theorem scan_cons_of_some {α : Type} (probe : List Char → Option α)
    {c : Char} {l : List Char} {v : α} (h : probe (c :: l) = some v) :
    scan probe (c :: l) = some v := by
  show (match probe (c :: l) with
    | some v => some v
    | none => scan probe l) = some v
  rw [h]

theorem scan_eq_of_probe {α : Type} (probe : List Char → Option α)
    {t : List Char} {v : α} (ht : t ≠ []) (h : probe t = some v) :
    scan probe t = some v := by
  cases t with
  | nil => exact absurd rfl ht
  | cons c l => exact scan_cons_of_some probe h

theorem scan_append_skip {α : Type} (probe : List Char → Option α) :
    ∀ (x rest : List Char),
      (∀ m, m < x.length → probe (x.drop m ++ rest) = none) →
      scan probe (x ++ rest) = scan probe rest := by
  intro x
  induction x with
  | nil => intro rest _; rfl
  | cons c x ih =>
    intro rest h
    have h0 : probe ((c :: x) ++ rest) = none := by
      have := h 0 (Nat.succ_pos _)
      simpa using this
    rw [List.cons_append,
      scan_cons_of_none probe (by rw [← List.cons_append]; exact h0)]
    exact ih rest (fun m hm => by
      have := h (m + 1) (Nat.succ_lt_succ hm)
      simpa using this)

theorem leadsWith_take {p : List Char} :
    ∀ {a b : List Char}, leadsWith p (a ++ b) = true →
      leadsWith (p.take a.length) a = true := by
  induction p with
  | nil => intro a b _; simp [List.take_nil, leadsWith]
  | cons x ps ih =>
    intro a b h
    cases a with
    | nil => rfl
    | cons c cs =>
      rw [List.cons_append] at h
      simp only [leadsWith, Bool.and_eq_true] at h
      simp only [List.length_cons, List.take_succ_cons, leadsWith,
        Bool.and_eq_true]
      exact ⟨h.1, ih h.2⟩

theorem leadsWithCI_take {p : List Char} :
    ∀ {a b : List Char}, leadsWithCI p (a ++ b) = true →
      leadsWithCI (p.take a.length) a = true := by
  induction p with
  | nil => intro a b _; simp [List.take_nil, leadsWithCI]
  | cons x ps ih =>
    intro a b h
    cases a with
    | nil => rfl
    | cons c cs =>
      rw [List.cons_append] at h
      simp only [leadsWithCI, Bool.and_eq_true] at h
      simp only [List.length_cons, List.take_succ_cons, leadsWithCI,
        Bool.and_eq_true]
      exact ⟨h.1, ih h.2⟩

/-- Decidable check that a case-sensitive pattern cannot begin at any
position inside a concrete segment: at every start offset the pattern
already mismatches within the segment, whatever follows it. -/
def noTailMatchCS (pat seg : List Char) : Bool :=
  (List.range seg.length).all
    (fun m => !leadsWith (pat.take (seg.length - m)) (seg.drop m))

/-- Case-insensitive version of noTailMatchCS. -/
def noTailMatchCI (pat seg : List Char) : Bool :=
  (List.range seg.length).all
    (fun m => !leadsWithCI (pat.take (seg.length - m)) (seg.drop m))

theorem scan_skip_concrete_CS {α : Type} (probe : List Char → Option α)
    (pat : List Char)
    (hnone : ∀ l, leadsWith pat l = false → probe l = none)
    (seg rest : List Char) (hseg : noTailMatchCS pat seg = true) :
    scan probe (seg ++ rest) = scan probe rest := by
  apply scan_append_skip
  intro m hm
  apply hnone
  cases hc : leadsWith pat (seg.drop m ++ rest) with
  | false => rfl
  | true =>
    have := leadsWith_take hc
    rw [List.length_drop] at this
    have hall := List.all_eq_true.1 hseg m (List.mem_range.2 hm)
    simp only [Bool.not_eq_eq_eq_not, Bool.not_true] at hall
    rw [this] at hall
    exact absurd hall (by simp)

theorem scan_skip_concrete_CI {α : Type} (probe : List Char → Option α)
    (pat : List Char)
    (hnone : ∀ l, leadsWithCI pat l = false → probe l = none)
    (seg rest : List Char) (hseg : noTailMatchCI pat seg = true) :
    scan probe (seg ++ rest) = scan probe rest := by
  apply scan_append_skip
  intro m hm
  apply hnone
  cases hc : leadsWithCI pat (seg.drop m ++ rest) with
  | false => rfl
  | true =>
    have := leadsWithCI_take hc
    rw [List.length_drop] at this
    have hall := List.all_eq_true.1 hseg m (List.mem_range.2 hm)
    simp only [Bool.not_eq_eq_eq_not, Bool.not_true] at hall
    rw [this] at hall
    exact absurd hall (by simp)

theorem toLower_eq_colon {c : Char} (h : Char.toLower c = ':') : c = ':' := by
  simp only [Char.toLower] at h
  by_cases hc : c.toNat ≥ 65 ∧ c.toNat ≤ 90
  · rw [if_pos hc] at h
    have h2 := congrArg Char.toNat h
    rw [toNat_ofNat_lt (by omega)] at h2
    have e : Char.toNat ':' = 58 := rfl
    rw [e] at h2
    omega
  · rwa [if_neg hc] at h

theorem leadsWith_mem_colon {p : List Char} :
    ∀ {w : List Char}, leadsWith p w = true → ':' ∈ p →
      ':' ∈ w.take p.length := by
  induction p with
  | nil => intro w _ hx; cases hx
  | cons a ps ih =>
    intro w h hx
    cases w with
    | nil => simp [leadsWith] at h
    | cons c cs =>
      simp only [leadsWith, Bool.and_eq_true, decide_eq_true_eq] at h
      rw [List.length_cons, List.take_succ_cons]
      rcases List.mem_cons.1 hx with h1 | h2
      · rw [← h.1, ← h1]
        exact List.mem_cons_self _ _
      · exact List.mem_cons_of_mem _ (ih h.2 h2)

theorem leadsWithCI_mem_colon {p : List Char} :
    ∀ {w : List Char}, leadsWithCI p w = true → ':' ∈ p →
      ':' ∈ w.take p.length := by
  induction p with
  | nil => intro w _ hx; cases hx
  | cons a ps ih =>
    intro w h hx
    cases w with
    | nil => simp [leadsWithCI] at h
    | cons c cs =>
      simp only [leadsWithCI, Bool.and_eq_true] at h
      rw [List.length_cons, List.take_succ_cons]
      rcases List.mem_cons.1 hx with h1 | h2
      · have hci : Char.toLower a = Char.toLower c := by
          have := h.1
          simpa [charCI] using this
        rw [← h1] at hci
        have : c = ':' := toLower_eq_colon (by
          rw [← hci]
          rfl)
        rw [this]
        exact List.mem_cons_self _ _
      · exact List.mem_cons_of_mem _ (ih h.2 h2)

theorem colon_notin_take {seg rest : List Char} {m plen : Nat}
    (hseg : ∀ c ∈ seg, c ≠ ':')
    (hrest : ∀ c ∈ rest.take plen, c ≠ ':')
    (hmem : ':' ∈ (seg.drop m ++ rest).take plen) : False := by
  rw [List.take_append_eq_append_take] at hmem
  rcases List.mem_append.1 hmem with h1 | h2
  · exact hseg ':' (List.mem_of_mem_drop (List.mem_of_mem_take h1)) rfl
  · have hsub : rest.take (plen - (seg.drop m).length) =
        (rest.take plen).take (plen - (seg.drop m).length) := by
      rw [List.take_take, min_eq_left (Nat.sub_le _ _)]
    rw [hsub] at h2
    exact hrest ':' (List.mem_of_mem_take h2) rfl

theorem scan_skip_colon_free_CS {α : Type} (probe : List Char → Option α)
    (pat : List Char) (hpat : ':' ∈ pat)
    (hnone : ∀ l, leadsWith pat l = false → probe l = none)
    (seg rest : List Char)
    (hseg : ∀ c ∈ seg, c ≠ ':')
    (hrest : ∀ c ∈ rest.take pat.length, c ≠ ':') :
    scan probe (seg ++ rest) = scan probe rest := by
  apply scan_append_skip
  intro m hm
  apply hnone
  cases hc : leadsWith pat (seg.drop m ++ rest) with
  | false => rfl
  | true =>
    exact absurd (leadsWith_mem_colon hc hpat)
      (fun hmem => colon_notin_take hseg hrest hmem)

theorem scan_skip_colon_free_CI {α : Type} (probe : List Char → Option α)
    (pat : List Char) (hpat : ':' ∈ pat)
    (hnone : ∀ l, leadsWithCI pat l = false → probe l = none)
    (seg rest : List Char)
    (hseg : ∀ c ∈ seg, c ≠ ':')
    (hrest : ∀ c ∈ rest.take pat.length, c ≠ ':') :
    scan probe (seg ++ rest) = scan probe rest := by
  apply scan_append_skip
  intro m hm
  apply hnone
  cases hc : leadsWithCI pat (seg.drop m ++ rest) with
  | false => rfl
  | true =>
    exact absurd (leadsWithCI_mem_colon hc hpat)
      (fun hmem => colon_notin_take hseg hrest hmem)

theorem probeNAME_of_fail {l : List Char}
    (h : leadsWith labelNAME l = false) : probeNAME l = none := by
  simp [probeNAME, h]

theorem probeSUMMARY_of_fail {l : List Char}
    (h : leadsWith labelSUMMARY l = false) : probeSUMMARY l = none := by
  simp [probeSUMMARY, h]

theorem probeEXPERIENCE_of_fail {l : List Char}
    (h : leadsWithCI labelEXPERIENCE l = false) : probeEXPERIENCE l = none := by
  simp [probeEXPERIENCE, h]

theorem leadsWith_self_append (p t : List Char) :
    leadsWith p (p ++ t) = true := by
  induction p with
  | nil => rfl
  | cons c ps ih => simp [leadsWith, ih]

theorem head?_append_of_ne_nil {a : List Char} (b : List Char) (ha : a ≠ []) :
    (a ++ b).head? = a.head? := by
  cases a with
  | nil => exact absurd rfl ha
  | cons c cs => rfl

theorem dropWhile_eq_self_of_head (p : Char → Bool) (l : List Char)
    (h : ∀ c, l.head? = some c → p c = false) : l.dropWhile p = l := by
  cases l with
  | nil => rfl
  | cons c cs =>
    rw [List.dropWhile_cons, h c rfl]
    simp

theorem takeWhile_ne_newline (a T2 : List Char) (hnl : ∀ c ∈ a, c ≠ '\n') :
    ((a ++ '\n' :: T2).takeWhile fun c => c ≠ '\n') = a := by
  induction a with
  | nil => simp [List.takeWhile_cons]
  | cons c cs ih =>
    have hc : c ≠ '\n' := hnl c (List.mem_cons_self _ _)
    simp only [List.cons_append, List.takeWhile_cons]
    rw [ih (fun d hd => hnl d (List.mem_cons_of_mem _ hd))]
    simp [hc]

theorem takeWhile_ne_newline_all (a : List Char) (hnl : ∀ c ∈ a, c ≠ '\n') :
    (a.takeWhile fun c => c ≠ '\n') = a := by
  induction a with
  | nil => rfl
  | cons c cs ih =>
    have hc : c ≠ '\n' := hnl c (List.mem_cons_self _ _)
    simp only [List.takeWhile_cons]
    rw [ih (fun d hd => hnl d (List.mem_cons_of_mem _ hd))]
    simp [hc]

theorem pyStrip_eq_self (l : List Char)
    (h1 : ∀ c, l.head? = some c → pyIsSpace c = false)
    (h2 : ∀ c, l.getLast? = some c → pyIsSpace c = false) :
    pyStrip l = l := by
  unfold pyStrip dropTrail
  rw [dropWhile_eq_self_of_head pyIsSpace l h1]
  rw [dropWhile_eq_self_of_head pyIsSpace l.reverse
    (fun c hc => h2 c (by rwa [List.head?_reverse] at hc))]
  exact List.reverse_reverse l

def hdNAME : List Char := "NAME: ".toList
def hdSUMMARY : List Char := "SUMMARY: ".toList
def expSeg : List Char := "\nEXPERIENCE: YES\n".toList
def midFWD : List Char := "\nEXPERIENCE: YES\nSUMMARY: ".toList
def midREV : List Char := "\nEXPERIENCE: YES\nNAME: ".toList
def midFWD2 : List Char := "EXPERIENCE: YES\nSUMMARY: ".toList
def midREV2 : List Char := "EXPERIENCE: YES\nNAME: ".toList

/-- A synthetic oracle response presenting NAME, EXPERIENCE, SUMMARY in
the forward protocol order, with EXPERIENCE value YES. -/
def forwardResponse (n s : List Char) : List Char :=
  hdNAME ++ n ++ midFWD ++ s

/-- The same synthetic oracle response with the three fields in reverse
order. -/
def reverseResponse (n s : List Char) : List Char :=
  hdSUMMARY ++ s ++ midREV ++ n

theorem probeNAME_eval (w : List Char) :
    probeNAME (labelNAME ++ w) = matchRestLine w := by
  unfold probeNAME
  rw [if_pos (leadsWith_self_append labelNAME w),
    List.drop_left' (show labelNAME.length = 5 from rfl)]

theorem probeSUMMARY_eval (w : List Char) :
    probeSUMMARY (labelSUMMARY ++ w) = matchRestAll w := by
  unfold probeSUMMARY
  rw [if_pos (leadsWith_self_append labelSUMMARY w),
    List.drop_left' (show labelSUMMARY.length = 8 from rfl)]

theorem dropWhile_space_cons (w : List Char)
    (hhead : ∀ c, w.head? = some c → pyIsSpace c = false) :
    (' ' :: w).dropWhile pyIsSpace = w := by
  rw [List.dropWhile_cons]
  have hsp : pyIsSpace ' ' = true := rfl
  rw [hsp, if_pos rfl]
  exact dropWhile_eq_self_of_head _ _ hhead

theorem matchRestLine_eval (a T : List Char) (ha : a ≠ [])
    (hhead : ∀ c, a.head? = some c → pyIsSpace c = false)
    (hnl : ∀ c ∈ a, c ≠ '\n') :
    matchRestLine (' ' :: (a ++ '\n' :: T)) = some a := by
  have hr : (' ' :: (a ++ '\n' :: T)).dropWhile pyIsSpace = a ++ '\n' :: T :=
    dropWhile_space_cons _ (fun c hc =>
      hhead c (by rwa [head?_append_of_ne_nil _ ha] at hc))
  simp only [matchRestLine, hr]
  rw [if_pos (List.append_ne_nil_of_left_ne_nil ha _)]
  rw [takeWhile_ne_newline a T hnl]

theorem matchRestLine_eval_end (a : List Char) (ha : a ≠ [])
    (hhead : ∀ c, a.head? = some c → pyIsSpace c = false)
    (hnl : ∀ c ∈ a, c ≠ '\n') :
    matchRestLine (' ' :: a) = some a := by
  have hr : (' ' :: a).dropWhile pyIsSpace = a := dropWhile_space_cons _ hhead
  simp only [matchRestLine, hr]
  rw [if_pos ha, takeWhile_ne_newline_all a hnl]

theorem matchRestAll_eval (a : List Char) (ha : a ≠ [])
    (hhead : ∀ c, a.head? = some c → pyIsSpace c = false) :
    matchRestAll (' ' :: a) = some a := by
  have hr : (' ' :: a).dropWhile pyIsSpace = a := dropWhile_space_cons _ hhead
  simp only [matchRestAll, hr]
  rw [if_pos ha]

theorem take_of_append_le {a b : List Char} {k : Nat} (h : k ≤ a.length) :
    (a ++ b).take k = a.take k := by
  rw [List.take_append_eq_append_take, Nat.sub_eq_zero_of_le h,
    List.take_zero, List.append_nil]

/-! The six search computations on the two synthetic responses. -/

theorem scanNAME_fwd (n tail : List Char) (hn : n ≠ [])
    (hhead : ∀ c, n.head? = some c → pyIsSpace c = false)
    (hnl : ∀ c ∈ n, c ≠ '\n') :
    scan probeNAME (hdNAME ++ (n ++ ('\n' :: tail))) = some n := by
  have hshape : hdNAME ++ (n ++ ('\n' :: tail)) =
      labelNAME ++ (' ' :: (n ++ '\n' :: tail)) := by
    rw [show hdNAME = labelNAME ++ [' '] from rfl, List.append_assoc]
    rfl
  rw [hshape]
  apply scan_eq_of_probe
  · exact List.append_ne_nil_of_left_ne_nil (by decide) _
  · rw [probeNAME_eval]
    exact matchRestLine_eval n tail hn hhead hnl

theorem scanNAME_rev (n s : List Char) (hn : n ≠ []) (_hs : s ≠ [])
    (hscolon : ∀ c ∈ s, c ≠ ':')
    (hhead : ∀ c, n.head? = some c → pyIsSpace c = false)
    (hnl : ∀ c ∈ n, c ≠ '\n') :
    scan probeNAME (hdSUMMARY ++ (s ++ (expSeg ++ (hdNAME ++ n)))) =
      some n := by
  rw [scan_skip_concrete_CS probeNAME labelNAME
    (fun l h => probeNAME_of_fail h) hdSUMMARY _ (by decide)]
  rw [scan_skip_colon_free_CS probeNAME labelNAME (by decide)
    (fun l h => probeNAME_of_fail h) s _ hscolon ?hrest]
  case hrest =>
    have hdec : ∀ c ∈ expSeg.take 5, c ≠ ':' := by decide
    intro c hc
    rw [show labelNAME.length = 5 from rfl,
      take_of_append_le (by decide)] at hc
    exact hdec c hc
  rw [scan_skip_concrete_CS probeNAME labelNAME
    (fun l h => probeNAME_of_fail h) expSeg _ (by decide)]
  have hshape : hdNAME ++ n = labelNAME ++ (' ' :: n) := by
    rw [show hdNAME = labelNAME ++ [' '] from rfl, List.append_assoc]
    rfl
  rw [hshape]
  apply scan_eq_of_probe
  · exact List.append_ne_nil_of_left_ne_nil (by decide) _
  · rw [probeNAME_eval]
    exact matchRestLine_eval_end n hn hhead hnl

theorem scanEXP_fwd (n s : List Char) (_hn : n ≠ [])
    (hncolon : ∀ c ∈ n, c ≠ ':') :
    scan probeEXPERIENCE (hdNAME ++ (n ++ ('\n' :: (midFWD2 ++ s)))) =
      some true := by
  rw [scan_skip_concrete_CI probeEXPERIENCE labelEXPERIENCE
    (fun l h => probeEXPERIENCE_of_fail h) hdNAME _ (by decide)]
  rw [scan_skip_colon_free_CI probeEXPERIENCE labelEXPERIENCE (by decide)
    (fun l h => probeEXPERIENCE_of_fail h) n _ hncolon ?hrest]
  case hrest =>
    have hdec : ∀ c ∈ ('\n' :: midFWD2).take 11, c ≠ ':' := by decide
    intro c hc
    rw [show labelEXPERIENCE.length = 11 from rfl,
      show ('\n' :: (midFWD2 ++ s)) = ('\n' :: midFWD2) ++ s from rfl,
      take_of_append_le (by decide)] at hc
    exact hdec c hc
  rw [scan_cons_of_none probeEXPERIENCE
    (probeEXPERIENCE_of_fail (by rfl))]
  apply scan_eq_of_probe
  · exact List.append_ne_nil_of_left_ne_nil (by decide) _
  · rfl

theorem scanEXP_rev (n s : List Char) (_hs : s ≠ [])
    (hscolon : ∀ c ∈ s, c ≠ ':') :
    scan probeEXPERIENCE (hdSUMMARY ++ (s ++ ('\n' :: (midREV2 ++ n)))) =
      some true := by
  rw [scan_skip_concrete_CI probeEXPERIENCE labelEXPERIENCE
    (fun l h => probeEXPERIENCE_of_fail h) hdSUMMARY _ (by decide)]
  rw [scan_skip_colon_free_CI probeEXPERIENCE labelEXPERIENCE (by decide)
    (fun l h => probeEXPERIENCE_of_fail h) s _ hscolon ?hrest]
  case hrest =>
    have hdec : ∀ c ∈ ('\n' :: midREV2).take 11, c ≠ ':' := by decide
    intro c hc
    rw [show labelEXPERIENCE.length = 11 from rfl,
      show ('\n' :: (midREV2 ++ n)) = ('\n' :: midREV2) ++ n from rfl,
      take_of_append_le (by decide)] at hc
    exact hdec c hc
  rw [scan_cons_of_none probeEXPERIENCE
    (probeEXPERIENCE_of_fail (by rfl))]
  apply scan_eq_of_probe
  · exact List.append_ne_nil_of_left_ne_nil (by decide) _
  · rfl

theorem scanSUMMARY_fwd (n s : List Char) (_hn : n ≠ []) (hs : s ≠ [])
    (hncolon : ∀ c ∈ n, c ≠ ':')
    (hshead : ∀ c, s.head? = some c → pyIsSpace c = false) :
    scan probeSUMMARY (hdNAME ++ (n ++ (expSeg ++ (hdSUMMARY ++ s)))) =
      some s := by
  rw [scan_skip_concrete_CS probeSUMMARY labelSUMMARY
    (fun l h => probeSUMMARY_of_fail h) hdNAME _ (by decide)]
  rw [scan_skip_colon_free_CS probeSUMMARY labelSUMMARY (by decide)
    (fun l h => probeSUMMARY_of_fail h) n _ hncolon ?hrest]
  case hrest =>
    have hdec : ∀ c ∈ expSeg.take 8, c ≠ ':' := by decide
    intro c hc
    rw [show labelSUMMARY.length = 8 from rfl,
      take_of_append_le (by decide)] at hc
    exact hdec c hc
  rw [scan_skip_concrete_CS probeSUMMARY labelSUMMARY
    (fun l h => probeSUMMARY_of_fail h) expSeg _ (by decide)]
  have hshape : hdSUMMARY ++ s = labelSUMMARY ++ (' ' :: s) := by
    rw [show hdSUMMARY = labelSUMMARY ++ [' '] from rfl, List.append_assoc]
    rfl
  rw [hshape]
  apply scan_eq_of_probe
  · exact List.append_ne_nil_of_left_ne_nil (by decide) _
  · rw [probeSUMMARY_eval]
    exact matchRestAll_eval s hs hshead

theorem scanSUMMARY_rev (n s : List Char) (hs : s ≠ [])
    (hshead : ∀ c, s.head? = some c → pyIsSpace c = false) :
    scan probeSUMMARY (hdSUMMARY ++ (s ++ (midREV ++ n))) =
      some (s ++ (midREV ++ n)) := by
  have hshape : hdSUMMARY ++ (s ++ (midREV ++ n)) =
      labelSUMMARY ++ (' ' :: (s ++ (midREV ++ n))) := by
    rw [show hdSUMMARY = labelSUMMARY ++ [' '] from rfl, List.append_assoc]
    rfl
  rw [hshape]
  apply scan_eq_of_probe
  · exact List.append_ne_nil_of_left_ne_nil (by decide) _
  · rw [probeSUMMARY_eval]
    exact matchRestAll_eval _ (List.append_ne_nil_of_left_ne_nil hs _)
      (fun c hc => hshead c (by rwa [head?_append_of_ne_nil _ hs] at hc))

/-- Decidable check that a field value has no leading and no trailing
whitespace. -/
def edgeOk (l : List Char) : Bool :=
  (match l.head? with
   | some c => !pyIsSpace c
   | none => true) &&
  (match l.getLast? with
   | some c => !pyIsSpace c
   | none => true)

theorem edgeOk_head {l : List Char} (h : edgeOk l = true) :
    ∀ c, l.head? = some c → pyIsSpace c = false := by
  intro c hc
  simp only [edgeOk, Bool.and_eq_true] at h
  have h1 := h.1
  rw [hc] at h1
  simpa using h1

theorem edgeOk_last {l : List Char} (h : edgeOk l = true) :
    ∀ c, l.getLast? = some c → pyIsSpace c = false := by
  intro c hc
  simp only [edgeOk, Bool.and_eq_true] at h
  have h2 := h.2
  rw [hc] at h2
  simpa using h2

theorem fieldOk_colon {l : List Char}
    (h : l.all (fun c => c != ':' && c != '\n') = true) :
    ∀ c ∈ l, c ≠ ':' := by
  intro c hc
  have hall := List.all_eq_true.1 h c hc
  simp only [Bool.and_eq_true, bne_iff_ne] at hall
  exact hall.1

theorem fieldOk_newline {l : List Char}
    (h : l.all (fun c => c != ':' && c != '\n') = true) :
    ∀ c ∈ l, c ≠ '\n' := by
  intro c hc
  have hall := List.all_eq_true.1 h c hc
  simp only [Bool.and_eq_true, bne_iff_ne] at hall
  exact hall.2

theorem forwardResponse_shape1 (n s : List Char) :
    forwardResponse n s = hdNAME ++ (n ++ ('\n' :: (midFWD2 ++ s))) := by
  unfold forwardResponse
  rw [List.append_assoc, List.append_assoc]
  rfl

theorem forwardResponse_shape2 (n s : List Char) :
    forwardResponse n s = hdNAME ++ (n ++ (expSeg ++ (hdSUMMARY ++ s))) := by
  unfold forwardResponse
  rw [List.append_assoc, List.append_assoc]
  rfl

theorem reverseResponse_shape1 (n s : List Char) :
    reverseResponse n s = hdSUMMARY ++ (s ++ ('\n' :: (midREV2 ++ n))) := by
  unfold reverseResponse
  rw [List.append_assoc, List.append_assoc]
  rfl

theorem reverseResponse_shape2 (n s : List Char) :
    reverseResponse n s = hdSUMMARY ++ (s ++ (expSeg ++ (hdNAME ++ n))) := by
  unfold reverseResponse
  rw [List.append_assoc, List.append_assoc]
  rfl

theorem reverseResponse_shape3 (n s : List Char) :
    reverseResponse n s = hdSUMMARY ++ (s ++ (midREV ++ n)) := by
  unfold reverseResponse
  rw [List.append_assoc, List.append_assoc]

/-- C4 amended: for every synthetic oracle response whose single-line name
and summary fields are nonempty, stripped, and free of colons and
newlines, presenting the three fields in reverse order yields the same
person name and the same experience flag as the forward order; but the
verdicts are not equal in general, because the SUMMARY capture is greedy
under re.DOTALL: the forward summary is exactly the summary field, while
the reverse summary extends to the end of the text, swallowing the
following EXPERIENCE and NAME lines. -/
theorem C4_amended (n s : List Char) (hn : n ≠ []) (hs : s ≠ [])
    (hnf : n.all (fun c => c != ':' && c != '\n') = true)
    (hsf : s.all (fun c => c != ':' && c != '\n') = true)
    (hne : edgeOk n = true) (hse : edgeOk s = true) :
    (analyze_text_for_interests (forwardResponse n s)).person_name = n ∧
    (analyze_text_for_interests (reverseResponse n s)).person_name = n ∧
    (analyze_text_for_interests (forwardResponse n s)).has_experience = true ∧
    (analyze_text_for_interests (reverseResponse n s)).has_experience = true ∧
    (analyze_text_for_interests (forwardResponse n s)).summary = s ∧
    (analyze_text_for_interests (reverseResponse n s)).summary =
      s ++ (midREV ++ n) := by
  have hnc := fieldOk_colon hnf
  have hnn := fieldOk_newline hnf
  have hsc := fieldOk_colon hsf
  have hnh := edgeOk_head hne
  have hnl := edgeOk_last hne
  have hsh := edgeOk_head hse
  have hsl := edgeOk_last hse
  have hN1 : scan probeNAME (forwardResponse n s) = some n := by
    rw [forwardResponse_shape1]
    exact scanNAME_fwd n _ hn hnh hnn
  have hN2 : scan probeNAME (reverseResponse n s) = some n := by
    rw [reverseResponse_shape2]
    exact scanNAME_rev n s hn hs hsc hnh hnn
  have hE1 : scan probeEXPERIENCE (forwardResponse n s) = some true := by
    rw [forwardResponse_shape1]
    exact scanEXP_fwd n s hn hnc
  have hE2 : scan probeEXPERIENCE (reverseResponse n s) = some true := by
    rw [reverseResponse_shape1]
    exact scanEXP_rev n s hs hsc
  have hS1 : scan probeSUMMARY (forwardResponse n s) = some s := by
    rw [forwardResponse_shape2]
    exact scanSUMMARY_fwd n s hn hs hnc hsh
  have hS2 : scan probeSUMMARY (reverseResponse n s) =
      some (s ++ (midREV ++ n)) := by
    rw [reverseResponse_shape3]
    exact scanSUMMARY_rev n s hs hsh
  have hmidn : midREV ++ n ≠ [] :=
    List.append_ne_nil_of_left_ne_nil (by decide) n
  have hstripN : pyStrip n = n := pyStrip_eq_self n hnh hnl
  have hstripS : pyStrip s = s := pyStrip_eq_self s hsh hsl
  have hstripSR : pyStrip (s ++ (midREV ++ n)) = s ++ (midREV ++ n) := by
    apply pyStrip_eq_self
    · intro c hc
      apply hsh c
      rwa [head?_append_of_ne_nil _ hs] at hc
    · intro c hc
      apply hnl c
      rw [List.getLast?_append_of_ne_nil _ hmidn,
        List.getLast?_append_of_ne_nil _ hn] at hc
      exact hc
  refine ⟨?_, ?_, ?_, ?_, ?_, ?_⟩ <;>
    simp only [analyze_text_for_interests, hN1, hN2, hE1, hE2, hS1, hS2,
      hstripN, hstripS, hstripSR]

def nW : List Char := "Jane Doe".toList
def sW : List Char := "built a surgical robot".toList

/-- Witness for C4 amended at concrete field values. -/
theorem C4_witness :
    (nW ≠ [] ∧ sW ≠ [] ∧
      nW.all (fun c => c != ':' && c != '\n') = true ∧
      sW.all (fun c => c != ':' && c != '\n') = true ∧
      edgeOk nW = true ∧ edgeOk sW = true) ∧
    ((analyze_text_for_interests (forwardResponse nW sW)).person_name = nW ∧
      (analyze_text_for_interests (reverseResponse nW sW)).person_name = nW ∧
      (analyze_text_for_interests (forwardResponse nW sW)).has_experience =
        true ∧
      (analyze_text_for_interests (reverseResponse nW sW)).has_experience =
        true ∧
      (analyze_text_for_interests (forwardResponse nW sW)).summary = sW ∧
      (analyze_text_for_interests (reverseResponse nW sW)).summary =
        sW ++ (midREV ++ nW)) :=
  ⟨by decide, C4_amended nW sW (by decide) (by decide) (by decide) (by decide)
    (by decide) (by decide)⟩

/-! ## C9: word and join infrastructure for the formatter -/

/-- A word as produced by str.split(): nonempty and whitespace-free. -/
def GoodWord (w : List Char) : Prop :=
  w ≠ [] ∧ ∀ c ∈ w, pyIsSpace c = false

theorem pyWords_space_cons {d : Char} (hd : pyIsSpace d = true)
    (t : List Char) : pyWords (d :: t) = pyWords t := by
  rw [pyWords.eq_def]
  simp [hd]

theorem pyWords_one {c : Char} (hcf : pyIsSpace c = false) :
    pyWords [c] = [[c]] := by
  rw [pyWords.eq_def]
  simp [hcf]

theorem pyWords_cons_space {c d : Char} (cs2 : List Char)
    (hcf : pyIsSpace c = false) (hd : pyIsSpace d = true) :
    pyWords (c :: d :: cs2) = [c] :: pyWords (d :: cs2) := by
  rw [pyWords.eq_def]
  simp [hcf, hd]

theorem pyWords_cons_cons {c d : Char} (cs2 : List Char)
    (hcf : pyIsSpace c = false) (hdf : pyIsSpace d = false) :
    pyWords (c :: d :: cs2) =
      match pyWords (d :: cs2) with
      | w :: ws => (c :: w) :: ws
      | [] => [[c]] := by
  rw [pyWords.eq_def]
  simp [hcf, hdf]

theorem bool_not_true {b : Bool} (h : ¬b = true) : b = false := by
  cases b
  · rfl
  · exact absurd rfl h

theorem pyWords_good (x : List Char) : ∀ w ∈ pyWords x, GoodWord w := by
  induction x with
  | nil => intro w hw; cases hw
  | cons c cs ih =>
    intro w hw
    by_cases hc : pyIsSpace c = true
    · rw [pyWords_space_cons hc] at hw
      exact ih w hw
    · have hcf := bool_not_true hc
      cases cs with
      | nil =>
        rw [pyWords_one hcf] at hw
        rcases List.mem_singleton.1 hw with rfl
        refine ⟨by simp, ?_⟩
        intro d hd
        rcases List.mem_singleton.1 hd with rfl
        exact hcf
      | cons d cs2 =>
        by_cases hd : pyIsSpace d = true
        · rw [pyWords_cons_space cs2 hcf hd] at hw
          rcases List.mem_cons.1 hw with rfl | hw2
          · refine ⟨by simp, ?_⟩
            intro e he
            rcases List.mem_singleton.1 he with rfl
            exact hcf
          · exact ih w hw2
        · have hdf := bool_not_true hd
          rcases hws : pyWords (d :: cs2) with _ | ⟨w1, ws1⟩
          · rw [pyWords_cons_cons cs2 hcf hdf, hws] at hw
            rcases List.mem_singleton.1 hw with rfl
            refine ⟨by simp, ?_⟩
            intro e he
            rcases List.mem_singleton.1 he with rfl
            exact hcf
          · rw [pyWords_cons_cons cs2 hcf hdf, hws] at hw
            have hgw1 : GoodWord w1 :=
              ih w1 (by rw [hws]; exact List.mem_cons_self _ _)
            rcases List.mem_cons.1 hw with rfl | hw2
            · refine ⟨by simp, ?_⟩
              intro e he
              rcases List.mem_cons.1 he with rfl | he2
              · exact hcf
              · exact hgw1.2 e he2
            · exact ih w (by rw [hws]; exact List.mem_cons_of_mem _ hw2)

theorem pyWords_sub (x : List Char) :
    ∀ w ∈ pyWords x, ∀ c ∈ w, c ∈ x := by
  induction x with
  | nil => intro w hw; cases hw
  | cons c cs ih =>
    intro w hw e he
    by_cases hc : pyIsSpace c = true
    · rw [pyWords_space_cons hc] at hw
      exact List.mem_cons_of_mem _ (ih w hw e he)
    · have hcf := bool_not_true hc
      cases cs with
      | nil =>
        rw [pyWords_one hcf] at hw
        rcases List.mem_singleton.1 hw with rfl
        rcases List.mem_singleton.1 he with rfl
        exact List.mem_cons_self _ _
      | cons d cs2 =>
        by_cases hd : pyIsSpace d = true
        · rw [pyWords_cons_space cs2 hcf hd] at hw
          rcases List.mem_cons.1 hw with rfl | hw2
          · rcases List.mem_singleton.1 he with rfl
            exact List.mem_cons_self _ _
          · exact List.mem_cons_of_mem _ (ih w hw2 e he)
        · have hdf := bool_not_true hd
          rcases hws : pyWords (d :: cs2) with _ | ⟨w1, ws1⟩
          · rw [pyWords_cons_cons cs2 hcf hdf, hws] at hw
            rcases List.mem_singleton.1 hw with rfl
            rcases List.mem_singleton.1 he with rfl
            exact List.mem_cons_self _ _
          · rw [pyWords_cons_cons cs2 hcf hdf, hws] at hw
            rcases List.mem_cons.1 hw with rfl | hw2
            · rcases List.mem_cons.1 he with rfl | he2
              · exact List.mem_cons_self _ _
              · refine List.mem_cons_of_mem _ (ih w1 ?_ e he2)
                rw [hws]
                exact List.mem_cons_self _ _
            · refine List.mem_cons_of_mem _ (ih w ?_ e he)
              rw [hws]
              exact List.mem_cons_of_mem _ hw2

theorem pyWords_single {w : List Char} (hw : GoodWord w) :
    pyWords w = [w] := by
  obtain ⟨hne, hgood⟩ := hw
  induction w with
  | nil => exact absurd rfl hne
  | cons c cs ih =>
    have hcf : pyIsSpace c = false := hgood c (List.mem_cons_self _ _)
    cases cs with
    | nil => exact pyWords_one hcf
    | cons d cs2 =>
      have hdf : pyIsSpace d = false :=
        hgood d (List.mem_cons_of_mem _ (List.mem_cons_self _ _))
      have hih : pyWords (d :: cs2) = [d :: cs2] :=
        ih (by simp) (fun e he => hgood e (List.mem_cons_of_mem _ he))
      rw [pyWords_cons_cons cs2 hcf hdf, hih]

theorem pyWords_word_append {w : List Char} (hw : GoodWord w) {d : Char}
    (hd : pyIsSpace d = true) (t : List Char) :
    pyWords (w ++ d :: t) = w :: pyWords (d :: t) := by
  obtain ⟨hne, hgood⟩ := hw
  induction w with
  | nil => exact absurd rfl hne
  | cons c cs ih =>
    have hcf : pyIsSpace c = false := hgood c (List.mem_cons_self _ _)
    cases cs with
    | nil =>
      show pyWords (c :: d :: t) = [c] :: pyWords (d :: t)
      exact pyWords_cons_space t hcf hd
    | cons c2 cs2 =>
      have hc2 : pyIsSpace c2 = false :=
        hgood c2 (List.mem_cons_of_mem _ (List.mem_cons_self _ _))
      have hih : pyWords ((c2 :: cs2) ++ d :: t) =
          (c2 :: cs2) :: pyWords (d :: t) :=
        ih (by simp) (fun e he => hgood e (List.mem_cons_of_mem _ he))
      show pyWords (c :: ((c2 :: cs2) ++ d :: t)) = _
      rw [show (c2 :: cs2) ++ d :: t = c2 :: (cs2 ++ d :: t) from rfl]
      rw [pyWords_cons_cons (cs2 ++ d :: t) hcf hc2]
      rw [show c2 :: (cs2 ++ d :: t) = (c2 :: cs2) ++ d :: t from rfl, hih]

theorem pyWords_joinSpace : ∀ (ws : List (List Char)),
    (∀ w ∈ ws, GoodWord w) → pyWords (joinSpace ws) = ws := by
  intro ws
  induction ws with
  | nil => intro _; rfl
  | cons w rest ih =>
    intro hgood
    cases rest with
    | nil =>
      show pyWords w = [w]
      exact pyWords_single (hgood w (List.mem_cons_self _ _))
    | cons r rs =>
      show pyWords (w ++ ' ' :: joinSpace (r :: rs)) = w :: (r :: rs)
      rw [pyWords_word_append (hgood w (List.mem_cons_self _ _))
          (show pyIsSpace ' ' = true from rfl),
        pyWords_space_cons (show pyIsSpace ' ' = true from rfl),
        ih (fun v hv => hgood v (List.mem_cons_of_mem _ hv))]

theorem joinSpace_ne_nil {ws : List (List Char)} (hne : ws ≠ [])
    (hgood : ∀ w ∈ ws, GoodWord w) : joinSpace ws ≠ [] := by
  cases ws with
  | nil => exact absurd rfl hne
  | cons w rest =>
    cases rest with
    | nil => exact (hgood w (List.mem_cons_self _ _)).1
    | cons r rs =>
      show w ++ ' ' :: joinSpace (r :: rs) ≠ []
      exact List.append_ne_nil_of_left_ne_nil
        (hgood w (List.mem_cons_self _ _)).1 _

theorem joinSpace_head? {w : List Char} (hw : w ≠ [])
    (rest : List (List Char)) :
    (joinSpace (w :: rest)).head? = w.head? := by
  cases rest with
  | nil => rfl
  | cons r rs =>
    show (w ++ ' ' :: joinSpace (r :: rs)).head? = w.head?
    exact head?_append_of_ne_nil _ hw

theorem joinSpace_getLast? : ∀ (ws : List (List Char)), ws ≠ [] →
    (∀ w ∈ ws, GoodWord w) →
    ∀ c, (joinSpace ws).getLast? = some c → pyIsSpace c = false := by
  intro ws
  induction ws with
  | nil => intro h; exact absurd rfl h
  | cons w rest ih =>
    intro _ hgood c hc
    cases rest with
    | nil =>
      have : w.getLast? = some c := hc
      exact (hgood w (List.mem_cons_self _ _)).2 c
        (List.mem_of_mem_getLast? (by simp [this]))
    | cons r rs =>
      have hjoin : joinSpace (w :: r :: rs) =
          w ++ ' ' :: joinSpace (r :: rs) := rfl
      rw [hjoin] at hc
      have hjne : joinSpace (r :: rs) ≠ [] :=
        joinSpace_ne_nil (by simp)
          (fun v hv => hgood v (List.mem_cons_of_mem _ hv))
      rw [List.getLast?_append_of_ne_nil _ (by simp : ' ' ::
        joinSpace (r :: rs) ≠ [])] at hc
      have : (' ' :: joinSpace (r :: rs)).getLast? =
          (joinSpace (r :: rs)).getLast? := by
        rw [show ' ' :: joinSpace (r :: rs) = [' '] ++ joinSpace (r :: rs)
          from rfl]
        exact List.getLast?_append_of_ne_nil _ hjne
      rw [this] at hc
      exact ih (by simp) (fun v hv => hgood v (List.mem_cons_of_mem _ hv)) c hc

theorem joinSpace_mem : ∀ (ws : List (List Char)) (c : Char),
    c ∈ joinSpace ws → (∃ w ∈ ws, c ∈ w) ∨ c = ' ' := by
  intro ws
  induction ws with
  | nil => intro c hc; cases hc
  | cons w rest ih =>
    intro c hc
    cases rest with
    | nil => exact Or.inl ⟨w, List.mem_cons_self _ _, hc⟩
    | cons r rs =>
      have : c ∈ w ++ ' ' :: joinSpace (r :: rs) := hc
      rcases List.mem_append.1 this with h1 | h2
      · exact Or.inl ⟨w, List.mem_cons_self _ _, h1⟩
      · rcases List.mem_cons.1 h2 with rfl | h3
        · exact Or.inr rfl
        · rcases ih c h3 with ⟨v, hv, hcv⟩ | hsp
          · exact Or.inl ⟨v, List.mem_cons_of_mem _ hv, hcv⟩
          · exact Or.inr hsp

/-! ## C9: chunking lemmas -/

theorem chunkLoop_nil (wpl : Nat) (cur : List (List Char)) :
    chunkLoop wpl cur [] = if cur = [] then [] else [cur] := rfl

theorem chunkLoop_cons (wpl : Nat) (cur : List (List Char)) (w0 : List Char)
    (ws : List (List Char)) :
    chunkLoop wpl cur (w0 :: ws) =
      if wpl ≤ (cur ++ [w0]).length then
        (cur ++ [w0]) :: chunkLoop wpl [] ws
      else chunkLoop wpl (cur ++ [w0]) ws := rfl

theorem chunkLoop_elem (wpl : Nat) : ∀ (ws cur : List (List Char)),
    ∀ g ∈ chunkLoop wpl cur ws, ∀ w ∈ g, w ∈ cur ∨ w ∈ ws := by
  intro ws
  induction ws with
  | nil =>
    intro cur g hg w hw
    by_cases hc : cur = []
    · rw [show chunkLoop wpl cur [] = [] by simp [chunkLoop, hc]] at hg
      cases hg
    · rw [show chunkLoop wpl cur [] = [cur] by simp [chunkLoop, hc]] at hg
      rcases List.mem_singleton.1 hg with rfl
      exact Or.inl hw
  | cons w0 ws ih =>
    intro cur g hg w hw
    by_cases hf : wpl ≤ (cur ++ [w0]).length
    · rw [chunkLoop_cons, if_pos hf] at hg
      rcases List.mem_cons.1 hg with rfl | hg2
      · rcases List.mem_append.1 hw with h1 | h2
        · exact Or.inl h1
        · rcases List.mem_singleton.1 h2 with rfl
          exact Or.inr (List.mem_cons_self _ _)
      · rcases ih [] g hg2 w hw with h1 | h2
        · cases h1
        · exact Or.inr (List.mem_cons_of_mem _ h2)
    · rw [chunkLoop_cons, if_neg hf] at hg
      rcases ih (cur ++ [w0]) g hg w hw with h1 | h2
      · rcases List.mem_append.1 h1 with h3 | h4
        · exact Or.inl h3
        · rcases List.mem_singleton.1 h4 with rfl
          exact Or.inr (List.mem_cons_self _ _)
      · exact Or.inr (List.mem_cons_of_mem _ h2)

theorem chunkLoop_sizes (wpl : Nat) (hwpl : 1 ≤ wpl) :
    ∀ (ws cur : List (List Char)), cur.length < wpl →
      ∀ g ∈ chunkLoop wpl cur ws, g ≠ [] ∧ g.length ≤ wpl := by
  intro ws
  induction ws with
  | nil =>
    intro cur hcur g hg
    by_cases hc : cur = []
    · rw [show chunkLoop wpl cur [] = [] by simp [chunkLoop, hc]] at hg
      cases hg
    · rw [show chunkLoop wpl cur [] = [cur] by simp [chunkLoop, hc]] at hg
      rcases List.mem_singleton.1 hg with rfl
      exact ⟨hc, Nat.le_of_lt hcur⟩
  | cons w0 ws ih =>
    intro cur hcur g hg
    have hlen : (cur ++ [w0]).length = cur.length + 1 := by simp
    by_cases hf : wpl ≤ (cur ++ [w0]).length
    · rw [chunkLoop_cons, if_pos hf] at hg
      rcases List.mem_cons.1 hg with rfl | hg2
      · refine ⟨by simp, ?_⟩
        rw [hlen]
        omega
      · exact ih [] (by simpa using hwpl) g hg2
    · rw [chunkLoop_cons, if_neg hf] at hg
      refine ih (cur ++ [w0]) ?_ g hg
      omega

theorem chunkLoop_one (wpl : Nat) : ∀ (ws cur : List (List Char)),
    cur.length + ws.length ≤ wpl → (cur = [] → ws ≠ []) →
    chunkLoop wpl cur ws = [cur ++ ws] := by
  intro ws
  induction ws with
  | nil =>
    intro cur _ hne
    have hc : cur ≠ [] := by
      intro h
      exact hne h rfl
    simp [chunkLoop, hc]
  | cons w0 ws ih =>
    intro cur hlen _
    have hl : (cur ++ [w0]).length = cur.length + 1 := by simp
    by_cases hf : wpl ≤ (cur ++ [w0]).length
    · have hws : ws = [] := by
        rw [hl] at hf
        simp only [List.length_cons] at hlen
        have : ws.length = 0 := by omega
        exact List.length_eq_zero.1 this
      subst hws
      rw [chunkLoop_cons, if_pos hf, chunkLoop_nil, if_pos rfl]
    · rw [chunkLoop_cons, if_neg hf]
      have h1 : (cur ++ [w0]).length + ws.length ≤ wpl := by
        simp only [List.length_cons] at hlen
        rw [hl]
        omega
      rw [ih (cur ++ [w0]) h1 (fun h => absurd h (by simp))]
      rw [List.append_assoc]
      rfl

/-! ## C9: line classification infrastructure -/

/-- The first branch condition of the formatter: an empty-after-strip line
or a preserved separator line. -/
def BlankSep (line : List Char) : Prop :=
  pyStrip line = [] ∨ leadsWith sepMark (pyStrip line) = true

/-- The label words without the colon, as recovered by split at the first
colon. -/
def labelWords : List (List Char) :=
  ["Date".toList, "Name".toList, "URL".toList, "Reason".toList]

theorem labelWords_facts : ∀ lab ∈ labelWords, lab ≠ [] ∧
    ∀ c ∈ lab, pyIsSpace c = false ∧ c ≠ ':' ∧ c ≠ '\n' ∧ c ≠ '=' := by
  decide

theorem labelWords_to_header : ∀ lab ∈ labelWords,
    (lab ++ [':']) ∈ headerLabels := by
  decide

theorem isHeader_cases {line : List Char} (h : isHeaderLine line = true) :
    ∃ lab, lab ∈ labelWords ∧ leadsWith (lab ++ [':']) line = true := by
  simp only [isHeaderLine, List.any_eq_true] at h
  obtain ⟨hdr, hmem, hlw⟩ := h
  simp only [headerLabels, List.mem_cons, List.not_mem_nil, or_false] at hmem
  rcases hmem with rfl | rfl | rfl | rfl
  · exact ⟨"Date".toList, by decide, hlw⟩
  · exact ⟨"Name".toList, by decide, hlw⟩
  · exact ⟨"URL".toList, by decide, hlw⟩
  · exact ⟨"Reason".toList, by decide, hlw⟩

theorem isHeaderLine_of_label {lab : List Char} (hmem : lab ∈ labelWords)
    (rest : List Char) :
    isHeaderLine (lab ++ ':' :: rest) = true := by
  simp only [isHeaderLine, List.any_eq_true]
  refine ⟨lab ++ [':'], labelWords_to_header lab hmem, ?_⟩
  rw [show lab ++ ':' :: rest = (lab ++ [':']) ++ rest by
    rw [List.append_assoc]; rfl]
  exact leadsWith_self_append _ _

theorem leadsWith_eq_take {p : List Char} :
    ∀ {w : List Char}, leadsWith p w = true ↔ w.take p.length = p := by
  induction p with
  | nil => intro w; simp [leadsWith]
  | cons x ps ih =>
    intro w
    cases w with
    | nil => simp [leadsWith]
    | cons c cs =>
      simp only [leadsWith, Bool.and_eq_true, decide_eq_true_eq,
        List.length_cons, List.take_succ_cons, List.cons.injEq]
      constructor
      · rintro ⟨rfl, h2⟩
        exact ⟨rfl, ih.1 h2⟩
      · rintro ⟨rfl, h2⟩
        exact ⟨rfl, ih.2 h2⟩

theorem takeWhile_ne_gen (x : Char) : ∀ (a t : List Char),
    (∀ c ∈ a, c ≠ x) → ((a ++ x :: t).takeWhile fun c => c ≠ x) = a := by
  intro a
  induction a with
  | nil => intro t _; simp [List.takeWhile_cons]
  | cons c cs ih =>
    intro t h
    have hc : c ≠ x := h c (List.mem_cons_self _ _)
    simp only [List.cons_append, List.takeWhile_cons]
    rw [ih t (fun d hd => h d (List.mem_cons_of_mem _ hd))]
    simp [hc]

theorem dropWhile_ne_gen (x : Char) : ∀ (a t : List Char),
    (∀ c ∈ a, c ≠ x) → ((a ++ x :: t).dropWhile fun c => c ≠ x) = x :: t := by
  intro a
  induction a with
  | nil => intro t _; simp [List.dropWhile_cons]
  | cons c cs ih =>
    intro t h
    have hc : c ≠ x := h c (List.mem_cons_self _ _)
    simp only [List.cons_append, List.dropWhile_cons]
    rw [ih t (fun d hd => h d (List.mem_cons_of_mem _ hd))]
    simp [hc]

theorem head?_dropWhile (p : Char → Bool) : ∀ (l : List Char) (c : Char),
    (l.dropWhile p).head? = some c → p c = false := by
  intro l
  induction l with
  | nil => intro c h; cases h
  | cons a as ih =>
    intro c h
    rw [List.dropWhile_cons] at h
    by_cases hp : p a = true
    · rw [hp, if_pos rfl] at h
      exact ih c h
    · have hf := bool_not_true hp
      rw [hf] at h
      simp at h
      subst h
      exact hf

theorem dropTrail_prefix (p : Char → Bool) (l : List Char) :
    ∃ t, dropTrail p l ++ t = l := by
  unfold dropTrail
  obtain ⟨s, hs⟩ : ∃ s, s ++ l.reverse.dropWhile p = l.reverse := by
    refine ⟨l.reverse.takeWhile p, ?_⟩
    exact List.takeWhile_append_dropWhile p l.reverse
  refine ⟨s.reverse, ?_⟩
  rw [← List.reverse_append, hs, List.reverse_reverse]

theorem pyStrip_head_nonspace (l : List Char) :
    ∀ c, (pyStrip l).head? = some c → pyIsSpace c = false := by
  intro c hc
  unfold pyStrip at hc
  obtain ⟨t, ht⟩ := dropTrail_prefix pyIsSpace (l.dropWhile pyIsSpace)
  have hne : dropTrail pyIsSpace (l.dropWhile pyIsSpace) ≠ [] := by
    intro h
    rw [h] at hc
    cases hc
  have : (l.dropWhile pyIsSpace).head? = some c := by
    rw [← ht, head?_append_of_ne_nil _ hne]
    exact hc
  exact head?_dropWhile pyIsSpace l c this

theorem pyStrip_last_nonspace (l : List Char) :
    ∀ c, (pyStrip l).getLast? = some c → pyIsSpace c = false := by
  intro c hc
  unfold pyStrip dropTrail at hc
  rw [List.getLast?_reverse] at hc
  exact head?_dropWhile pyIsSpace _ c hc

theorem pyStrip_sub (l : List Char) : ∀ c ∈ pyStrip l, c ∈ l := by
  intro c hc
  unfold pyStrip dropTrail at hc
  rw [List.mem_reverse] at hc
  have h1 := (List.dropWhile_sublist pyIsSpace).subset hc
  rw [List.mem_reverse] at h1
  exact (List.dropWhile_sublist pyIsSpace).subset h1

/-! Branch-computation lemmas for format_line. -/

theorem format_line_blanksep {wpl : Nat} {line : List Char}
    (h : BlankSep line) : format_line wpl line = [line] := by
  have h2 : pyStrip line = [] ∨ leadsWith sepMark (pyStrip line) = true := h
  unfold format_line
  rw [if_pos h2]

theorem format_line_short {wpl : Nat} {line : List Char}
    (h1 : ¬BlankSep line) (h2 : isHeaderLine line = false)
    (h3 : ¬wpl < (pyWords line).length) :
    format_line wpl line = [line] := by
  have h1b : ¬(pyStrip line = [] ∨ leadsWith sepMark (pyStrip line) = true) := h1
  unfold format_line
  rw [if_neg h1b, if_neg (by simp [h2]), if_neg h3]

theorem format_line_long {wpl : Nat} {line : List Char}
    (h1 : ¬BlankSep line) (h2 : isHeaderLine line = false)
    (h3 : wpl < (pyWords line).length) :
    format_line wpl line = (chunkLoop wpl [] (pyWords line)).map joinSpace := by
  have h1b : ¬(pyStrip line = [] ∨ leadsWith sepMark (pyStrip line) = true) := h1
  unfold format_line
  rw [if_neg h1b, if_neg (by simp [h2]), if_pos h3]

theorem format_line_nocolon {wpl : Nat} {line : List Char}
    (h1 : ¬BlankSep line) (h2 : isHeaderLine line = true)
    (h3 : ':' ∉ line) : format_line wpl line = [line] := by
  have h1b : ¬(pyStrip line = [] ∨ leadsWith sepMark (pyStrip line) = true) := h1
  unfold format_line
  rw [if_neg h1b, if_pos h2, if_neg h3]

theorem format_line_emptycontent {wpl : Nat} {line : List Char}
    (h1 : ¬BlankSep line) (h2 : isHeaderLine line = true) (h3 : ':' ∈ line)
    (h4 : pyStrip ((line.dropWhile (fun c => c ≠ ':')).tail) = []) :
    format_line wpl line = [line] := by
  have h1b : ¬(pyStrip line = [] ∨ leadsWith sepMark (pyStrip line) = true) := h1
  unfold format_line
  rw [if_neg h1b, if_pos h2, if_pos h3, if_neg (fun hne => hne h4)]

theorem format_line_header {wpl : Nat} {line content g : List Char}
    {gs : List (List Char)}
    (h1 : ¬BlankSep line) (h2 : isHeaderLine line = true) (h3 : ':' ∈ line)
    (hcontent : pyStrip ((line.dropWhile (fun c => c ≠ ':')).tail) = content)
    (h4 : content ≠ [])
    (hch : (chunkLoop wpl [] (pyWords content)).map joinSpace = g :: gs) :
    format_line wpl line =
      (line.takeWhile (fun c => c ≠ ':') ++ ':' :: ' ' :: g) :: gs := by
  have h1b : ¬(pyStrip line = [] ∨ leadsWith sepMark (pyStrip line) = true) := h1
  unfold format_line
  rw [if_neg h1b, if_pos h2, if_pos h3, hcontent, if_pos h4, hch]

/-! ## C9: the three classes of formatter output lines -/

/-- A line that is a space-join of at most wpl good words. -/
def GoodChunk (wpl : Nat) (m : List Char) : Prop :=
  ∃ ws, ws ≠ [] ∧ (∀ w ∈ ws, GoodWord w) ∧ ws.length ≤ wpl ∧
    m = joinSpace ws

/-- A rebuilt header line: a label, a colon, one space, and a space-join
of at most wpl good words. -/
def HeaderGood (wpl : Nat) (m : List Char) : Prop :=
  ∃ lab ws, lab ∈ labelWords ∧ ws ≠ [] ∧ (∀ w ∈ ws, GoodWord w) ∧
    ws.length ≤ wpl ∧ m = lab ++ ':' :: ' ' :: joinSpace ws

/-- A line the formatter reproduces unchanged, together with the reason
that makes it harmless for the word bound. -/
def SelfOk (wpl : Nat) (m : List Char) : Prop :=
  format_line wpl m = [m] ∧
    ((pyWords m).length ≤ wpl ∨ isHeaderLine m = true ∨ BlankSep m)

theorem pyStrip_space_cons (a : List Char) : pyStrip (' ' :: a) = pyStrip a :=
  rfl

theorem pyStrip_joinSpace {ws : List (List Char)} (hne : ws ≠ [])
    (hgood : ∀ w ∈ ws, GoodWord w) :
    pyStrip (joinSpace ws) = joinSpace ws := by
  cases ws with
  | nil => exact absurd rfl hne
  | cons w rest =>
    apply pyStrip_eq_self
    · intro c hc
      rw [joinSpace_head? (hgood w (List.mem_cons_self _ _)).1 rest] at hc
      exact (hgood w (List.mem_cons_self _ _)).2 c
        (List.mem_of_mem_head? (by simp [hc]))
    · exact joinSpace_getLast? (w :: rest) (by simp) hgood

theorem leadsWith_head_ne {x c : Char} {p w : List Char} (h : x ≠ c) :
    leadsWith (x :: p) (c :: w) = false := by
  simp [leadsWith, h]

theorem goodChunk_words {wpl : Nat} {m : List Char} (h : GoodChunk wpl m) :
    (pyWords m).length ≤ wpl := by
  obtain ⟨ws, _, hgood, hlen, rfl⟩ := h
  rw [pyWords_joinSpace ws hgood]
  exact hlen

theorem headerGood_isHeader {wpl : Nat} {m : List Char}
    (h : HeaderGood wpl m) : isHeaderLine m = true := by
  obtain ⟨lab, ws, hlab, _, _, _, rfl⟩ := h
  exact isHeaderLine_of_label hlab _

theorem headerGood_stable {wpl : Nat} {m : List Char}
    (h : HeaderGood wpl m) : format_line wpl m = [m] := by
  obtain ⟨lab, ws, hlab, hws_ne, hws_good, hws_len, rfl⟩ := h
  obtain ⟨hlab_ne, hlab_chars⟩ := labelWords_facts lab hlab
  have hlab_colon : ∀ c ∈ lab, c ≠ ':' := fun c hc => (hlab_chars c hc).2.1
  have hjoin_ne : joinSpace ws ≠ [] := joinSpace_ne_nil hws_ne hws_good
  have hstrip : pyStrip (lab ++ ':' :: ' ' :: joinSpace ws) =
      lab ++ ':' :: ' ' :: joinSpace ws := by
    apply pyStrip_eq_self
    · intro c hc
      rw [head?_append_of_ne_nil _ hlab_ne] at hc
      exact (hlab_chars c (List.mem_of_mem_head? (by simp [hc]))).1
    · intro c hc
      rw [List.getLast?_append_of_ne_nil _ (by simp : (':' :: ' ' ::
        joinSpace ws) ≠ [])] at hc
      rw [show ':' :: ' ' :: joinSpace ws = [':', ' '] ++ joinSpace ws
        from rfl, List.getLast?_append_of_ne_nil _ hjoin_ne] at hc
      exact joinSpace_getLast? ws hws_ne hws_good c hc
  have hbs : ¬BlankSep (lab ++ ':' :: ' ' :: joinSpace ws) := by
    intro hb
    rcases hb with h1 | h2
    · rw [hstrip] at h1
      exact List.append_ne_nil_of_left_ne_nil hlab_ne _ h1
    · rw [hstrip] at h2
      cases hl : lab with
      | nil => exact hlab_ne hl
      | cons c0 lab2 =>
        rw [hl] at h2
        have hc0 : c0 ≠ '=' := by
          have := (hlab_chars c0 (by rw [hl]; exact List.mem_cons_self _ _)).2.2.2
          exact this
        rw [show (c0 :: lab2) ++ ':' :: ' ' :: joinSpace ws =
          c0 :: (lab2 ++ ':' :: ' ' :: joinSpace ws) from rfl] at h2
        rw [show sepMark = '=' :: "===".toList from rfl,
          leadsWith_head_ne (fun he => hc0 he.symm)] at h2
        exact absurd h2 (by simp)
  have hch : chunkLoop wpl [] ws = [ws] :=
    chunkLoop_one wpl ws [] (by simpa using hws_len) (fun _ => hws_ne)
  rw [format_line_header hbs (isHeaderLine_of_label hlab _)
    (by simp : ':' ∈ lab ++ ':' :: ' ' :: joinSpace ws)
    (by rw [dropWhile_ne_gen ':' lab (' ' :: joinSpace ws) hlab_colon,
      List.tail_cons, pyStrip_space_cons,
      pyStrip_joinSpace hws_ne hws_good])
    hjoin_ne
    (by rw [pyWords_joinSpace ws hws_good, hch]; rfl)]
  rw [takeWhile_ne_gen ':' lab (' ' :: joinSpace ws) hlab_colon]
  rfl

theorem goodChunk_step {wpl : Nat} {m : List Char} (h : GoodChunk wpl m) :
    format_line wpl m = [m] ∨
      ∃ m2, format_line wpl m = [m2] ∧ HeaderGood wpl m2 := by
  obtain ⟨ws, hne, hgood, hlen, rfl⟩ := h
  cases ws with
  | nil => exact absurd rfl hne
  | cons w rest =>
  have hw := hgood w (List.mem_cons_self _ _)
  have hstrip : pyStrip (joinSpace (w :: rest)) = joinSpace (w :: rest) :=
    pyStrip_joinSpace (by simp) hgood
  have hjne : joinSpace (w :: rest) ≠ [] := joinSpace_ne_nil (by simp) hgood
  by_cases hsep : leadsWith sepMark (pyStrip (joinSpace (w :: rest))) = true
  · exact Or.inl (format_line_blanksep (Or.inr hsep))
  · have hbs : ¬BlankSep (joinSpace (w :: rest)) := by
      intro hb
      rcases hb with h1 | h2
      · rw [hstrip] at h1
        exact hjne h1
      · exact hsep h2
    by_cases hhdr : isHeaderLine (joinSpace (w :: rest)) = true
    · obtain ⟨lab, hlab, hlw⟩ := isHeader_cases hhdr
      obtain ⟨hlab_ne, hlab_chars⟩ := labelWords_facts lab hlab
      have hlab_colon : ∀ c ∈ lab, c ≠ ':' := fun c hc =>
        (hlab_chars c hc).2.1
      obtain ⟨tail0, hm, hcases⟩ : ∃ tail0,
          joinSpace (w :: rest) = w ++ tail0 ∧
          (rest = [] ∧ tail0 = [] ∨
            rest ≠ [] ∧ tail0 = ' ' :: joinSpace rest) := by
        cases rest with
        | nil => exact ⟨[], by simp [joinSpace], Or.inl ⟨rfl, rfl⟩⟩
        | cons r2 rs => exact ⟨' ' :: joinSpace (r2 :: rs), rfl,
            Or.inr ⟨by simp, rfl⟩⟩
      have hk := (leadsWith_eq_take).1 hlw
      have hkey : ∃ r, w = lab ++ ':' :: r := by
        by_cases hlw2 : (lab ++ [':']).length ≤ w.length
        · refine ⟨w.drop (lab ++ [':']).length, ?_⟩
          have htk : w.take (lab ++ [':']).length = lab ++ [':'] := by
            rw [hm, take_of_append_le hlw2] at hk
            exact hk
          conv_lhs => rw [← List.take_append_drop (lab ++ [':']).length w]
          rw [htk, List.append_assoc]
          rfl
        · exfalso
          push_neg at hlw2
          rcases hcases with ⟨hrest, ht0⟩ | ⟨hrest, ht0⟩
          · rw [hm, ht0, List.append_nil] at hk
            have hlen2 := congrArg List.length hk
            rw [List.length_take] at hlen2
            simp only [List.length_append, List.length_cons,
              List.length_nil] at hlen2 hlw2
            omega
          · rw [hm, ht0, List.take_append_eq_append_take,
              List.take_of_length_le (Nat.le_of_lt hlw2)] at hk
            have hsp : ' ' ∈ lab ++ [':'] := by
              rw [← hk]
              refine List.mem_append.2 (Or.inr ?_)
              have hpos : 0 < (lab ++ [':']).length - w.length := by
                simp only [List.length_append, List.length_cons,
                  List.length_nil] at hlw2 ⊢
                omega
              obtain ⟨t, ht⟩ : ∃ t,
                  (lab ++ [':']).length - w.length = t + 1 :=
                ⟨_, (Nat.succ_pred_eq_of_pos hpos).symm⟩
              rw [ht, List.take_succ_cons]
              exact List.mem_cons_self _ _
            rcases List.mem_append.1 hsp with h1 | h2
            · have := (hlab_chars ' ' h1).1
              exact absurd this (by decide)
            · simp at h2
      rcases hkey with ⟨r, hwr⟩
      have hr_good : ∀ c ∈ r, pyIsSpace c = false := by
        intro c hc
        refine hw.2 c ?_
        rw [hwr]
        exact List.mem_append.2 (Or.inr (List.mem_cons_of_mem _ hc))
      by_cases hr : r = []
      · subst hr
        rcases hcases with ⟨hrest, ht0⟩ | ⟨hrest, ht0⟩
        · subst hrest
          left
          apply format_line_emptycontent hbs hhdr
          · rw [hm, ht0, List.append_nil, hwr]
            simp
          · rw [hm, ht0, List.append_nil, hwr,
              dropWhile_ne_gen ':' lab [] hlab_colon]
            rfl
        · left
          apply headerGood_stable
          refine ⟨lab, rest, hlab, hrest,
            fun v hv => hgood v (List.mem_cons_of_mem _ hv), ?_, ?_⟩
          · simp only [List.length_cons] at hlen
            omega
          · rw [hm, ht0, hwr, List.append_assoc]
            rfl
      · right
        have hrtail : r ++ tail0 = joinSpace (r :: rest) := by
          rcases hcases with ⟨hrest, ht0⟩ | ⟨hrest, ht0⟩
          · subst hrest
            rw [ht0, List.append_nil]
            rfl
          · cases rest with
            | nil => exact absurd rfl hrest
            | cons r2 rs =>
              rw [ht0]
              rfl
        have hgood2 : ∀ v ∈ (r :: rest), GoodWord v := by
          intro v hv
          rcases List.mem_cons.1 hv with rfl | hv2
          · exact ⟨hr, hr_good⟩
          · exact hgood v (List.mem_cons_of_mem _ hv2)
        have hlen2 : (r :: rest).length ≤ wpl := by
          simp only [List.length_cons] at hlen ⊢
          omega
        have hm2 : joinSpace (w :: rest) = lab ++ ':' :: (r ++ tail0) := by
          rw [hm, hwr, List.append_assoc]
          rfl
        have hcontent : pyStrip (((joinSpace (w :: rest)).dropWhile
            (fun c => c ≠ ':')).tail) = joinSpace (r :: rest) := by
          rw [hm2, dropWhile_ne_gen ':' lab (r ++ tail0) hlab_colon,
            List.tail_cons, hrtail]
          exact pyStrip_joinSpace (by simp) hgood2
        have hch : chunkLoop wpl [] (pyWords (joinSpace (r :: rest))) =
            [r :: rest] := by
          rw [pyWords_joinSpace _ hgood2]
          exact chunkLoop_one wpl _ [] (by simpa using hlen2)
            (fun _ => by simp)
        refine ⟨lab ++ ':' :: ' ' :: joinSpace (r :: rest), ?_,
          lab, r :: rest, hlab, by simp, hgood2, hlen2, rfl⟩
        have hfl := format_line_header hbs hhdr (by rw [hm2]; simp)
          hcontent (joinSpace_ne_nil (by simp) hgood2) (by rw [hch]; rfl)
        rw [hfl]
        have htw : (joinSpace (w :: rest)).takeWhile (fun c => c ≠ ':') =
            lab := by
          rw [hm2]
          exact takeWhile_ne_gen ':' lab (r ++ tail0) hlab_colon
        rw [htw]
        rfl
    · left
      apply format_line_short hbs (bool_not_true hhdr)
      rw [pyWords_joinSpace _ hgood]
      exact Nat.not_lt.2 hlen

theorem format_line_header_nil {wpl : Nat} {line content : List Char}
    (h1 : ¬BlankSep line) (h2 : isHeaderLine line = true) (h3 : ':' ∈ line)
    (hcontent : pyStrip ((line.dropWhile (fun c => c ≠ ':')).tail) = content)
    (h4 : content ≠ [])
    (hch : (chunkLoop wpl [] (pyWords content)).map joinSpace = []) :
    format_line wpl line = [line] := by
  have h1b : ¬(pyStrip line = [] ∨ leadsWith sepMark (pyStrip line) = true) :=
    h1
  unfold format_line
  rw [if_neg h1b, if_pos h2, if_pos h3, hcontent, if_pos h4, hch]

theorem takeWhile_header_label {line lab : List Char}
    (hlab : lab ∈ labelWords) (hlw : leadsWith (lab ++ [':']) line = true) :
    line.takeWhile (fun c => c ≠ ':') = lab := by
  obtain ⟨_, hchars⟩ := labelWords_facts lab hlab
  have hcolon : ∀ c ∈ lab, c ≠ ':' := fun c hc => (hchars c hc).2.1
  have hline : line = lab ++ ':' :: line.drop (lab ++ [':']).length := by
    have hk := (leadsWith_eq_take).1 hlw
    conv_lhs => rw [← List.take_append_drop (lab ++ [':']).length line]
    rw [hk, List.append_assoc]
    rfl
  conv_lhs => rw [hline]
  exact takeWhile_ne_gen ':' lab _ hcolon

/-- Every output line of one formatter pass is self-stable for a harmless
reason, a chunk of at most wpl good words, or a rebuilt header line. -/
theorem format_line_classify {wpl : Nat} (hwpl : 1 ≤ wpl)
    (line : List Char) :
    ∀ m ∈ format_line wpl line,
      SelfOk wpl m ∨ GoodChunk wpl m ∨ HeaderGood wpl m := by
  intro m hm
  by_cases hbs : BlankSep line
  · rw [format_line_blanksep hbs] at hm
    rcases List.mem_singleton.1 hm with rfl
    exact Or.inl ⟨format_line_blanksep hbs, Or.inr (Or.inr hbs)⟩
  · by_cases hhdr : isHeaderLine line = true
    · by_cases hcol : ':' ∈ line
      · by_cases hcon :
            pyStrip ((line.dropWhile (fun c => c ≠ ':')).tail) = []
        · rw [format_line_emptycontent hbs hhdr hcol hcon] at hm
          rcases List.mem_singleton.1 hm with rfl
          exact Or.inl ⟨format_line_emptycontent hbs hhdr hcol hcon,
            Or.inr (Or.inl hhdr)⟩
        · rcases hch : (chunkLoop wpl [] (pyWords (pyStrip
              ((line.dropWhile (fun c => c ≠ ':')).tail)))).map joinSpace
            with _ | ⟨g, gs⟩
          · rw [format_line_header_nil hbs hhdr hcol rfl hcon hch] at hm
            rcases List.mem_singleton.1 hm with rfl
            exact Or.inl ⟨format_line_header_nil hbs hhdr hcol rfl hcon hch,
              Or.inr (Or.inl hhdr)⟩
          · rw [format_line_header hbs hhdr hcol rfl hcon hch] at hm
            have hsz := chunkLoop_sizes wpl hwpl
              (pyWords (pyStrip ((line.dropWhile (fun c => c ≠ ':')).tail)))
              [] (by simpa using hwpl)
            have helem := chunkLoop_elem wpl
              (pyWords (pyStrip ((line.dropWhile (fun c => c ≠ ':')).tail)))
              []
            have hwordsgood := pyWords_good
              (pyStrip ((line.dropWhile (fun c => c ≠ ':')).tail))
            rcases List.mem_cons.1 hm with rfl | hm2
            · obtain ⟨ch0, chs, hch0, hg, _⟩ :=
                List.map_eq_cons_iff.1 hch
              obtain ⟨lab, hlab, hlw⟩ := isHeader_cases hhdr
              have hmem0 : ch0 ∈ chunkLoop wpl [] (pyWords (pyStrip
                  ((line.dropWhile (fun c => c ≠ ':')).tail))) := by
                rw [hch0]
                exact List.mem_cons_self _ _
              right
              right
              refine ⟨lab, ch0, hlab, (hsz ch0 hmem0).1, ?_,
                (hsz ch0 hmem0).2, ?_⟩
              · intro v hv
                rcases helem ch0 hmem0 v hv with h1 | h2
                · cases h1
                · exact hwordsgood v h2
              · rw [takeWhile_header_label hlab hlw, hg]
            · right
              left
              obtain ⟨ch0, chs, hch0, _, hgs⟩ := List.map_eq_cons_iff.1 hch
              rw [← hgs] at hm2
              obtain ⟨chi, hchi, hji⟩ := List.mem_map.1 hm2
              have hchi2 : chi ∈ chunkLoop wpl [] (pyWords (pyStrip
                  ((line.dropWhile (fun c => c ≠ ':')).tail))) := by
                rw [hch0]
                exact List.mem_cons_of_mem _ hchi
              refine ⟨chi, (hsz chi hchi2).1, ?_, (hsz chi hchi2).2, hji.symm⟩
              intro v hv
              rcases helem chi hchi2 v hv with h1 | h2
              · cases h1
              · exact hwordsgood v h2
      · rw [format_line_nocolon hbs hhdr hcol] at hm
        rcases List.mem_singleton.1 hm with rfl
        exact Or.inl ⟨format_line_nocolon hbs hhdr hcol,
          Or.inr (Or.inl hhdr)⟩
    · by_cases hlong : wpl < (pyWords line).length
      · rw [format_line_long hbs (bool_not_true hhdr) hlong] at hm
        obtain ⟨chi, hchi, hji⟩ := List.mem_map.1 hm
        have hsz := chunkLoop_sizes wpl hwpl (pyWords line) []
          (by simpa using hwpl)
        have helem := chunkLoop_elem wpl (pyWords line) []
        right
        left
        refine ⟨chi, (hsz chi hchi).1, ?_, (hsz chi hchi).2, hji.symm⟩
        intro v hv
        rcases helem chi hchi v hv with h1 | h2
        · cases h1
        · exact pyWords_good line v h2
      · rw [format_line_short hbs (bool_not_true hhdr) hlong] at hm
        rcases List.mem_singleton.1 hm with rfl
        exact Or.inl ⟨format_line_short hbs (bool_not_true hhdr) hlong,
          Or.inl (Nat.not_lt.1 hlong)⟩

/-! ## C9: assembling the two-pass properties of the whole formatter -/

theorem splitLines_no_newline_mem : ∀ (t : List Char),
    ∀ l ∈ splitLines t, '\n' ∉ l := by
  intro t
  induction t with
  | nil =>
    intro l hl
    rcases List.mem_singleton.1 hl with rfl
    simp
  | cons c cs ih =>
    intro l hl
    by_cases hc : c = '\n'
    · subst hc
      rw [splitLines_newline_cons] at hl
      rcases List.mem_cons.1 hl with rfl | hl2
      · simp
      · exact ih l hl2
    · rw [splitLines_cons_of_ne hc] at hl
      rcases hsl : splitLines cs with _ | ⟨l0, ls⟩
      · exact absurd hsl (splitLines_ne_nil cs)
      · rw [hsl] at hl
        rcases List.mem_cons.1 hl with rfl | hl2
        · intro hmem
          rcases List.mem_cons.1 hmem with h1 | h2
          · exact hc h1.symm
          · exact ih l0 (by rw [hsl]; exact List.mem_cons_self _ _) h2
        · exact ih l (by rw [hsl]; exact List.mem_cons_of_mem _ hl2)

theorem joinSpace_no_newline {ws : List (List Char)} (src : List Char)
    (hsub : ∀ w ∈ ws, ∀ c ∈ w, c ∈ src) (hsrc : '\n' ∉ src) :
    '\n' ∉ joinSpace ws := by
  intro hmem
  rcases joinSpace_mem ws '\n' hmem with ⟨w, hw, hcw⟩ | hsp
  · exact hsrc (hsub w hw '\n' hcw)
  · cases hsp

theorem content_sub (line : List Char) :
    ∀ c ∈ pyStrip ((line.dropWhile (fun c => c ≠ ':')).tail), c ∈ line := by
  intro c hc
  have h1 := pyStrip_sub _ c hc
  have h2 := (List.tail_sublist
    (line.dropWhile (fun c => c ≠ ':'))).subset h1
  exact (List.dropWhile_sublist (fun c => c ≠ ':')).subset h2

theorem format_line_no_newline {wpl : Nat} {line : List Char}
    (hline : '\n' ∉ line) : ∀ m ∈ format_line wpl line, '\n' ∉ m := by
  intro m hm
  by_cases hbs : BlankSep line
  · rw [format_line_blanksep hbs] at hm
    rcases List.mem_singleton.1 hm with rfl
    exact hline
  · by_cases hhdr : isHeaderLine line = true
    · by_cases hcol : ':' ∈ line
      · by_cases hcon :
            pyStrip ((line.dropWhile (fun c => c ≠ ':')).tail) = []
        · rw [format_line_emptycontent hbs hhdr hcol hcon] at hm
          rcases List.mem_singleton.1 hm with rfl
          exact hline
        · have hcsub : ∀ w ∈ pyWords (pyStrip ((line.dropWhile
              (fun c => c ≠ ':')).tail)), ∀ c ∈ w, c ∈ line := by
            intro w hw c hc
            exact content_sub line c (pyWords_sub _ w hw c hc)
          have hchunksub : ∀ g ∈ chunkLoop wpl [] (pyWords (pyStrip
              ((line.dropWhile (fun c => c ≠ ':')).tail))),
              '\n' ∉ joinSpace g := by
            intro g hg
            apply joinSpace_no_newline line _ hline
            intro w hw c hc
            rcases chunkLoop_elem wpl _ [] g hg w hw with h1 | h2
            · cases h1
            · exact hcsub w h2 c hc
          rcases hch : (chunkLoop wpl [] (pyWords (pyStrip
              ((line.dropWhile (fun c => c ≠ ':')).tail)))).map joinSpace
            with _ | ⟨g, gs⟩
          · rw [format_line_header_nil hbs hhdr hcol rfl hcon hch] at hm
            rcases List.mem_singleton.1 hm with rfl
            exact hline
          · rw [format_line_header hbs hhdr hcol rfl hcon hch] at hm
            obtain ⟨ch0, chs, hch0, hg, hgs⟩ := List.map_eq_cons_iff.1 hch
            have hmem0 : ch0 ∈ chunkLoop wpl [] (pyWords (pyStrip
                ((line.dropWhile (fun c => c ≠ ':')).tail))) := by
              rw [hch0]
              exact List.mem_cons_self _ _
            rcases List.mem_cons.1 hm with rfl | hm2
            · intro hmem
              rcases List.mem_append.1 hmem with h1 | h2
              · exact hline ((List.takeWhile_sublist
                  (fun c => c ≠ ':')).subset h1)
              · rcases List.mem_cons.1 h2 with h3 | h4
                · cases h3
                · rcases List.mem_cons.1 h4 with h5 | h6
                  · cases h5
                  · rw [← hg] at h6
                    exact hchunksub ch0 hmem0 h6
            · rw [← hgs] at hm2
              obtain ⟨chi, hchi, hji⟩ := List.mem_map.1 hm2
              rw [← hji]
              have hmemi : chi ∈ chunkLoop wpl [] (pyWords (pyStrip
                  ((line.dropWhile (fun c => c ≠ ':')).tail))) := by
                rw [hch0]
                exact List.mem_cons_of_mem _ hchi
              exact hchunksub chi hmemi
      · rw [format_line_nocolon hbs hhdr hcol] at hm
        rcases List.mem_singleton.1 hm with rfl
        exact hline
    · by_cases hlong : wpl < (pyWords line).length
      · rw [format_line_long hbs (bool_not_true hhdr) hlong] at hm
        obtain ⟨chi, hchi, hji⟩ := List.mem_map.1 hm
        rw [← hji]
        apply joinSpace_no_newline line _ hline
        intro w hw c hc
        rcases chunkLoop_elem wpl _ [] chi hchi w hw with h1 | h2
        · cases h1
        · exact pyWords_sub _ w h2 c hc
      · rw [format_line_short hbs (bool_not_true hhdr) hlong] at hm
        rcases List.mem_singleton.1 hm with rfl
        exact hline

theorem chunkLoop_ne_nil (wpl : Nat) : ∀ (ws cur : List (List Char)),
    cur ≠ [] ∨ ws ≠ [] → chunkLoop wpl cur ws ≠ [] := by
  intro ws
  induction ws with
  | nil =>
    intro cur h
    rcases h with h | h
    · rw [chunkLoop_nil, if_neg h]
      simp
    · exact absurd rfl h
  | cons w0 ws ih =>
    intro cur _
    rw [chunkLoop_cons]
    by_cases hf : wpl ≤ (cur ++ [w0]).length
    · rw [if_pos hf]
      simp
    · rw [if_neg hf]
      exact ih (cur ++ [w0]) (Or.inl (by simp))

theorem format_line_ne_nil (wpl : Nat) (line : List Char) :
    format_line wpl line ≠ [] := by
  by_cases hbs : BlankSep line
  · rw [format_line_blanksep hbs]
    simp
  · by_cases hhdr : isHeaderLine line = true
    · by_cases hcol : ':' ∈ line
      · by_cases hcon :
            pyStrip ((line.dropWhile (fun c => c ≠ ':')).tail) = []
        · rw [format_line_emptycontent hbs hhdr hcol hcon]
          simp
        · rcases hch : (chunkLoop wpl [] (pyWords (pyStrip
              ((line.dropWhile (fun c => c ≠ ':')).tail)))).map joinSpace
            with _ | ⟨g, gs⟩
          · rw [format_line_header_nil hbs hhdr hcol rfl hcon hch]
            simp
          · rw [format_line_header hbs hhdr hcol rfl hcon hch]
            simp
      · rw [format_line_nocolon hbs hhdr hcol]
        simp
    · by_cases hlong : wpl < (pyWords line).length
      · rw [format_line_long hbs (bool_not_true hhdr) hlong]
        intro h
        rw [List.map_eq_nil_iff] at h
        refine chunkLoop_ne_nil wpl (pyWords line) [] (Or.inr ?_) h
        intro h2
        rw [h2] at hlong
        simp at hlong
      · rw [format_line_short hbs (bool_not_true hhdr) hlong]
        simp

theorem flatten_map_ne_nil (wpl : Nat) {ls : List (List Char)}
    (h : ls ≠ []) : ((ls.map (format_line wpl)).flatten) ≠ [] := by
  cases ls with
  | nil => exact absurd rfl h
  | cons l ls2 =>
    show format_line wpl l ++ (ls2.map (format_line wpl)).flatten ≠ []
    exact List.append_ne_nil_of_left_ne_nil (format_line_ne_nil wpl l) _

theorem flatten_map_id (wpl : Nat) : ∀ (ls : List (List Char)),
    (∀ m ∈ ls, format_line wpl m = [m]) →
    ((ls.map (format_line wpl)).flatten) = ls := by
  intro ls
  induction ls with
  | nil => intro _; rfl
  | cons l ls2 ih =>
    intro h
    show format_line wpl l ++ (ls2.map (format_line wpl)).flatten = l :: ls2
    rw [h l (List.mem_cons_self _ _),
      ih (fun m hm => h m (List.mem_cons_of_mem _ hm))]
    rfl

theorem splitLines_joinNL : ∀ (ls : List (List Char)), ls ≠ [] →
    (∀ l ∈ ls, '\n' ∉ l) → splitLines (joinNL ls) = ls := by
  intro ls
  induction ls with
  | nil => intro h; exact absurd rfl h
  | cons l ls2 ih =>
    intro _ hnl
    cases ls2 with
    | nil =>
      show splitLines l = [l]
      exact splitLines_no_newline l (hnl l (List.mem_cons_self _ _))
    | cons l2 ls3 =>
      show splitLines (l ++ '\n' :: joinNL (l2 :: ls3)) = _
      rw [splitLines_append_newline,
        splitLines_no_newline l (hnl l (List.mem_cons_self _ _)),
        ih (by simp) (fun x hx => hnl x (List.mem_cons_of_mem _ hx))]
      rfl

theorem format_split (wpl : Nat) (text : List Char) :
    splitLines (format_text_with_line_breaks text wpl) =
      ((splitLines text).map (format_line wpl)).flatten := by
  show splitLines (joinNL (((splitLines text).map (format_line wpl)).flatten))
    = _
  apply splitLines_joinNL
  · exact flatten_map_ne_nil wpl (splitLines_ne_nil text)
  · intro m hm
    obtain ⟨fl, hfl, hmfl⟩ := List.mem_flatten.1 hm
    obtain ⟨l0, hl0, hfl0⟩ := List.mem_map.1 hfl
    rw [← hfl0] at hmfl
    exact format_line_no_newline (splitLines_no_newline_mem text l0 hl0)
      m hmfl

theorem second_pass_classify {wpl : Nat} (hwpl : 1 ≤ wpl)
    (ls : List (List Char)) :
    ∀ m2 ∈ ((((ls.map (format_line wpl)).flatten).map
        (format_line wpl)).flatten),
      SelfOk wpl m2 ∨ HeaderGood wpl m2 := by
  intro m2 hm2
  obtain ⟨fl2, hfl2, hm2fl⟩ := List.mem_flatten.1 hm2
  obtain ⟨m1, hm1, hfl1⟩ := List.mem_map.1 hfl2
  rw [← hfl1] at hm2fl
  obtain ⟨fl1, hfl1b, hm1fl⟩ := List.mem_flatten.1 hm1
  obtain ⟨l0, hl0, hfl0⟩ := List.mem_map.1 hfl1b
  rw [← hfl0] at hm1fl
  rcases format_line_classify hwpl l0 m1 hm1fl with hself | hchunk | hhg
  · rw [hself.1] at hm2fl
    rcases List.mem_singleton.1 hm2fl with rfl
    exact Or.inl hself
  · rcases goodChunk_step hchunk with hstab | ⟨m2b, hflb, hhgb⟩
    · rw [hstab] at hm2fl
      rcases List.mem_singleton.1 hm2fl with rfl
      exact Or.inl ⟨hstab, Or.inl (goodChunk_words hchunk)⟩
    · rw [hflb] at hm2fl
      rcases List.mem_singleton.1 hm2fl with rfl
      exact Or.inr hhgb
  · rw [headerGood_stable hhg] at hm2fl
    rcases List.mem_singleton.1 hm2fl with rfl
    exact Or.inr hhg

/-- C9 amended: for every input text and positive words-per-line setting,
after two formatter passes every line that is not a header line and not a
preserved blank-or-separator line (stripped empty, or stripped form
starting with the separator marker) has at most words-per-line words; and
a third pass is byte-identical to the second: the formatter reaches a
fixed point after at most two applications.  The separator exception is
forced by the counterexample: lines whose stripped form starts with the
marker are preserved verbatim with any number of words. -/
theorem C9_amended (text : List Char) (wpl : Nat) (hwpl : 1 ≤ wpl) :
    (∀ line ∈ splitLines (format_text_with_line_breaks
        (format_text_with_line_breaks text wpl) wpl),
      isHeaderLine line = false → pyStrip line ≠ [] →
      leadsWith sepMark (pyStrip line) = false →
      (pyWords line).length ≤ wpl) ∧
    format_text_with_line_breaks (format_text_with_line_breaks
      (format_text_with_line_breaks text wpl) wpl) wpl =
      format_text_with_line_breaks (format_text_with_line_breaks text wpl)
        wpl := by
  have h1 : splitLines (format_text_with_line_breaks text wpl) =
      ((splitLines text).map (format_line wpl)).flatten :=
    format_split wpl text
  have h2 : splitLines (format_text_with_line_breaks
      (format_text_with_line_breaks text wpl) wpl) =
      (((((splitLines text).map (format_line wpl)).flatten).map
        (format_line wpl)).flatten) := by
    rw [format_split wpl _, h1]
  have hcls := second_pass_classify hwpl (splitLines text)
  constructor
  · intro line hline hhdr hne hsep
    rw [h2] at hline
    rcases hcls line hline with ⟨_, hdisj⟩ | hhg
    · rcases hdisj with hok | hhdr2 | hblank
      · exact hok
      · rw [hhdr2] at hhdr
        cases hhdr
      · rcases hblank with hb1 | hb2
        · exact absurd hb1 hne
        · rw [hb2] at hsep
          cases hsep
    · rw [headerGood_isHeader hhg] at hhdr
      cases hhdr
  · have hstab : ∀ m2 ∈ (((((splitLines text).map
        (format_line wpl)).flatten).map (format_line wpl)).flatten),
        format_line wpl m2 = [m2] := by
      intro m2 hm2
      rcases hcls m2 hm2 with hself | hhg
      · exact hself.1
      · exact headerGood_stable hhg
    show joinNL (((splitLines (format_text_with_line_breaks
      (format_text_with_line_breaks text wpl) wpl)).map
        (format_line wpl)).flatten) = _
    rw [h2, flatten_map_id wpl _ hstab]
    show joinNL _ = joinNL (((splitLines (format_text_with_line_breaks
      text wpl)).map (format_line wpl)).flatten)
    rw [h1]

def textW : List Char :=
  "Reason: built a robot and a second robot and then a third robot for the robot games".toList

/-- Witness for C9 amended at a concrete text and the default setting of
fifteen words per line. -/
theorem C9_witness :
    1 ≤ 15 ∧
    format_text_with_line_breaks (format_text_with_line_breaks
      (format_text_with_line_breaks textW 15) 15) 15 =
      format_text_with_line_breaks (format_text_with_line_breaks textW 15)
        15 :=
  ⟨by decide, (C9_amended textW 15 (by decide)).2⟩

end YC
